import Mathlib

/-!
Verification of the `qk` build/release orchestration CLI core.

The JavaScript source is shallowly embedded:

* JS `Map` objects (insertion-ordered, key-overwriting) are modelled as
  association lists `List (String × β)` manipulated only through `jsMapSet`,
  `jsMapGet`, `jsMapHas` and `jsMapDelete`, which reproduce the `Map.set`,
  `Map.get`, `Map.has` and `Map.delete` semantics (overwrite in place,
  append fresh keys, first-match lookup).
* JS numbers standing for exit codes, process ids and in-degrees become
  `Int`/`Nat`; JS strings become `String` (`List Char` underneath).
* Impure inputs (the wall clock, the OS process-liveness probe, the
  interactive confirmation prompt) become explicit parameters.
* The on-disk session directory becomes an association list from
  configuration name to session document.
* Fallible code returns `Except String`.
-/

namespace QK

/-! ## JS `Map` model -/

/-- JS `Map.prototype.set`: overwrite in place if the key is present,
otherwise append the new entry at the end (insertion order). -/
def jsMapSet {β : Type} (m : List (String × β)) (k : String) (v : β) :
    List (String × β) :=
  if m.any (fun p => p.1 == k) then
    m.map (fun p => if p.1 == k then (k, v) else p)
  else
    m ++ [(k, v)]

/-- JS `Map.prototype.get`: first entry with the key, if any. -/
def jsMapGet {β : Type} (m : List (String × β)) (k : String) : Option β :=
  (m.find? (fun p => p.1 == k)).map (fun p => p.2)

/-- JS `Map.prototype.has`. -/
def jsMapHas {β : Type} (m : List (String × β)) (k : String) : Bool :=
  m.any (fun p => p.1 == k)

/-- JS `Map.prototype.delete` (also models deleting a session file). -/
def jsMapDelete {β : Type} (m : List (String × β)) (k : String) :
    List (String × β) :=
  m.filter (fun p => !(p.1 == k))

theorem find?_setf_self {β : Type} (m : List (String × β)) (k : String) (v : β)
    (h : m.any (fun p => p.1 == k) = true) :
    (m.map (fun p => if p.1 == k then (k, v) else p)).find? (fun p => p.1 == k)
      = some (k, v) := by
  induction m with
  | nil => simp at h
  | cons p t ih =>
    by_cases hp : (p.1 == k) = true
    · rw [List.map_cons, if_pos hp, List.find?_cons_of_pos _ (by simp)]
    · rw [List.map_cons, if_neg (by simp [hp]),
        List.find?_cons_of_neg _ (by simpa using hp)]
      apply ih
      simp only [List.any_cons, Bool.or_eq_true] at h
      rcases h with h | h
      · exact absurd h hp
      · exact h

theorem find?_setf_ne {β : Type} (m : List (String × β)) (k k' : String) (v : β)
    (h : k ≠ k') :
    (m.map (fun p => if p.1 == k then (k, v) else p)).find? (fun p => p.1 == k')
      = m.find? (fun p => p.1 == k') := by
  induction m with
  | nil => rfl
  | cons p t ih =>
    by_cases hp : (p.1 == k) = true
    · have hpk : p.1 = k := by simpa using hp
      have h1 : ((k, v).1 == k') = false := by simp [h]
      have h2 : (p.1 == k') = false := by simp [hpk, h]
      simp only [List.map_cons, if_pos hp, List.find?_cons, h1, h2]
      exact ih
    · rw [List.map_cons, if_neg (by simp [hp])]
      by_cases hp' : (p.1 == k') = true
      · simp [List.find?_cons, hp']
      · have hf : (p.1 == k') = false := by simpa using hp'
        simp only [List.find?_cons, hf]
        exact ih

/-- `set` then `get`: lookup the written key and you see the written value;
any other key is untouched. -/
theorem jsMapGet_set {β : Type} (m : List (String × β)) (k k' : String) (v : β) :
    jsMapGet (jsMapSet m k v) k' = if k' = k then some v else jsMapGet m k' := by
  unfold jsMapGet jsMapSet
  by_cases ha : m.any (fun p => p.1 == k) = true
  · rw [if_pos ha]
    by_cases hk : k' = k
    · subst hk
      rw [find?_setf_self m k' v ha, if_pos rfl]
      rfl
    · rw [find?_setf_ne m k k' v (fun e => hk e.symm), if_neg hk]
  · rw [if_neg ha, List.find?_append]
    by_cases hk : k' = k
    · subst hk
      have hnone : m.find? (fun p => p.1 == k') = none := by
        rw [List.find?_eq_none]
        intro x hx hpx
        exact ha (List.any_of_mem hx hpx)
      simp [hnone, List.find?_cons]
    · have h1 : ((k, v).1 == k') = false := by simp [Ne.symm hk]
      rw [if_neg hk]
      have h2 : List.find? (fun p => p.1 == k') [(k, v)] = none := by
        simp [List.find?_cons, h1]
      rw [h2, Option.or_none]

/-- `delete` then `get`: the deleted key is gone, other keys untouched. -/
theorem jsMapGet_delete {β : Type} (m : List (String × β)) (k k' : String) :
    jsMapGet (jsMapDelete m k) k' = if k' = k then none else jsMapGet m k' := by
  unfold jsMapGet jsMapDelete
  induction m with
  | nil => simp
  | cons p t ih =>
    by_cases hp : (p.1 == k) = true
    · have hpk : p.1 = k := by simpa using hp
      rw [List.filter_cons, if_neg (by simp [hp])]
      by_cases hk : k' = k
      · simp only [ih, if_pos hk]
      · have h2 : (p.1 == k') = false := by simp [hpk, Ne.symm hk]
        simp only [ih, if_neg hk, List.find?_cons, h2]
    · rw [List.filter_cons, if_pos (by simp [hp])]
      by_cases hp' : (p.1 == k') = true
      · have hk : ¬ k' = k := by
          intro e
          subst e
          exact hp hp'
        rw [if_neg hk]
        simp [List.find?_cons, hp']
      · have hf : (p.1 == k') = false := by simpa using hp'
        simp only [List.find?_cons, hf]
        exact ih

/-! ## Session state store (`state-store.mjs`)

One JSON document per configuration name in the per-user state directory.
The directory is modelled as an association list from configuration name to
session document (`jsMap*` = file create/read/overwrite/delete).  The wall
clock (`new Date().toISOString()`) and the creation-time session id
(`generateSessionId`) are explicit parameters. -/

/-- One spawned OS process, as persisted in a session document
(the `procInfo` object of `process-manager.mjs`). -/
structure ProcessRecord where
  pid : Nat
  command : String
  cwd : String
  startTime : String
  endTime : Option String
  exitCode : Option Int
  status : String
  ptype : String
  groupId : Option String
deriving DecidableEq, Repr

/-- A session document (`createSession`'s shape). -/
structure Session where
  configName : String
  sessionId : String
  startedAt : String
  endedAt : Option String
  processes : List ProcessRecord
  lastUpdated : String
deriving DecidableEq, Repr

/-- The state directory: configuration name ↦ session document. -/
abbrev SessionStore := List (String × Session)

/-- `createSession(configName)`: unconditionally writes a fresh document with
an empty `processes` array (overwriting any existing file for that name).
`sid` stands for `generateSessionId()` and `now` for the creation timestamp. -/
def createSession (store : SessionStore) (configName sid now : String) :
    SessionStore :=
  jsMapSet store configName
    { configName := configName
      sessionId := sid
      startedAt := now
      endedAt := none
      processes := []
      lastUpdated := now }

/-- `readSession(configName)`: `null` if the file is absent. -/
def readSession (store : SessionStore) (configName : String) : Option Session :=
  jsMapGet store configName

/-- The partial documents actually passed to `updateSession` in the sources
(`{processes: ...}` and `{endedAt: ...}`); a present field replaces the
whole corresponding field of the stored document (shallow merge). -/
structure SessionPatch where
  endedAt : Option (Option String) := none
  processes : Option (List ProcessRecord) := none
deriving DecidableEq, Repr

/-- `updateSession(configName, data)`: fails if the session does not exist,
shallow-merges `data` over the stored document, stamps `lastUpdated`, writes. -/
def updateSession (store : SessionStore) (configName : String)
    (data : SessionPatch) (now : String) : Except String SessionStore :=
  match readSession store configName with
  | none => .error ("Session not found: " ++ configName)
  | some session =>
    let updatedSession : Session :=
      { session with
        endedAt := data.endedAt.getD session.endedAt
        processes := data.processes.getD session.processes
        lastUpdated := now }
    .ok (jsMapSet store configName updatedSession)

/-- `addProcess(configName, processInfo)`: fails if the session does not
exist, appends the record, stamps `lastUpdated`, writes. -/
def addProcess (store : SessionStore) (configName : String)
    (processInfo : ProcessRecord) (now : String) : Except String SessionStore :=
  match readSession store configName with
  | none => .error ("Session not found: " ++ configName)
  | some session =>
    .ok (jsMapSet store configName
      { session with
        processes := session.processes ++ [processInfo]
        lastUpdated := now })

/-- `deleteSession(configName)`: removes the file, reporting whether it
existed. -/
def deleteSession (store : SessionStore) (configName : String) :
    SessionStore × Bool :=
  if jsMapHas store configName then (jsMapDelete store configName, true)
  else (store, false)

/-! ## Process manager bookkeeping (`process-manager.mjs`)

`executeCommand`'s `close` and `error` handlers finalize the spawned
process's `procInfo` and persist it with
`updateSession(configName, { processes: [procInfo] })`. -/

/-- The `close`-handler mutation of `procInfo` (exit with code `code`). -/
def finalizeOnClose (rec : ProcessRecord) (code : Int) (now : String) :
    ProcessRecord :=
  { rec with status := "stopped", endTime := some now, exitCode := some code }

/-- The `error`-handler mutation of `procInfo` (spawn failure; note that the
handler does not touch `exitCode`). -/
def finalizeOnError (rec : ProcessRecord) (now : String) : ProcessRecord :=
  { rec with status := "stopped", endTime := some now }

/-- `proc.on('close', ...)` bookkeeping:
`updateSession(configName, { processes: [procInfo] })`. -/
def onProcessClose (store : SessionStore) (configName : String)
    (rec : ProcessRecord) (code : Int) (now : String) :
    Except String SessionStore :=
  updateSession store configName
    { processes := some [finalizeOnClose rec code now] } now

/-- `proc.on('error', ...)` bookkeeping:
`updateSession(configName, { processes: [procInfo] })`. -/
def onProcessError (store : SessionStore) (configName : String)
    (rec : ProcessRecord) (now : String) : Except String SessionStore :=
  updateSession store configName
    { processes := some [finalizeOnError rec now] } now

instance {ε α : Type} [DecidableEq ε] [DecidableEq α] : DecidableEq (Except ε α)
  | .ok a, .ok b =>
    if h : a = b then .isTrue (by rw [h]) else .isFalse (by simp [h])
  | .ok _, .error _ => .isFalse (by simp)
  | .error _, .ok _ => .isFalse (by simp)
  | .error e, .error f =>
    if h : e = f then .isTrue (by rw [h]) else .isFalse (by simp [h])

/-! ## Parallel group execution (`ProcessManager.executeCommandsParallel`)

`executeCommandsParallel` spawns every command of the group, then `await`s
`Promise.allSettled` — i.e. it suspends until *every* sibling has settled
(its `close` or `error` handler has fired) — and only afterwards inspects
the results and, on failure with `killOnFail`, calls `killGroup`.  The
observable behaviour is modelled as an ordered event trace: settle events
(in the temporal order the siblings happened to finish, a parameter) are
emitted by the `allSettled` join, and any group-kill signals can only be
emitted after the join returns. -/

/-- One observable event of a parallel group run. -/
inductive PEvent where
  /-- sibling `index` (spawned with process id `pid`) settled;
  `ok` = fulfilled with exit code 0. -/
  | settled (index : Nat) (pid : Nat) (ok : Bool)
  /-- signal `sig` delivered (or attempted) to `pid`. -/
  | signal (pid : Nat) (sig : String)
deriving DecidableEq, Repr

/-- Outcome of one sibling command: its process id and whether its
`executeCommand` promise was fulfilled (exit code 0). -/
structure CmdOutcome where
  pid : Nat
  ok : Bool
deriving DecidableEq, Repr

/-- `killGroup`: `terminateProcess(pid)` for every pid registered in the
group, in registration order.  Each `terminateProcess` sends `SIGTERM`
immediately; the scheduled `SIGKILL` escalations fire 3 s later, hence
after every `SIGTERM`. -/
def killGroupTrace (pids : List Nat) : List PEvent :=
  pids.map (fun pid => PEvent.signal pid "SIGTERM") ++
    pids.map (fun pid => PEvent.signal pid "SIGKILL")

/-- The result object of `executeCommandsParallel` together with the event
trace of the run.  `settleOrder` is the temporal order (by index) in which
the siblings settled; the group's registered pids are the outcomes' pids in
spawn order. -/
def executeCommandsParallel (outcomes : List CmdOutcome)
    (settleOrder : List Nat) (killOnFail : Bool) :
    List PEvent × Bool × Nat :=
  let settleEvents := settleOrder.filterMap (fun i =>
    (outcomes.get? i).map (fun o => PEvent.settled i o.pid o.ok))
  let hasFailure := outcomes.any (fun o => !o.ok)
  let kills :=
    if hasFailure && killOnFail then killGroupTrace (outcomes.map (·.pid))
    else []
  (settleEvents ++ kills, !hasFailure,
    (outcomes.filter (fun o => !o.ok)).length)

/-! ## Watch/reaper tool (`pack-watch/killer.mjs`, `pack-watch/display.mjs`)

The OS liveness probe `isProcessAlive` (`kill(pid, 0)`, treating `EPERM` as
alive) and the interactive confirmation prompt are explicit parameters. -/

/-- Result of a `terminateProcess(configName, pid)` call. -/
structure KillOutcome where
  /-- normal return vs. thrown error message. -/
  result : Except String Unit
  /-- the state directory afterwards. -/
  store : SessionStore
  /-- every signal actually delivered to the OS, in order. -/
  signals : List PEvent
deriving DecidableEq, Repr

/-- `terminateProcess(configName, pid)` from `killer.mjs`.

The source binds `const process = session.processes.find(p => p.pid === pid)`,
which shadows the Node global `process` for the rest of the function body.
When the record's pid is alive, the line `process.kill(pid, 'SIGTERM')`
therefore invokes `.kill` on that plain session record — which has no such
method — and raises `TypeError: process.kill is not a function` before any
signal is delivered.  The `catch` block sees an error without an errno
`code` and rethrows it wrapped in `Failed to terminate process ...`.  So no
signal is ever sent, and the session is never updated. -/
def terminateProcess (store : SessionStore) (configName : String) (pid : Nat)
    (alive : Nat → Bool) : KillOutcome :=
  match readSession store configName with
  | none =>
    { result := .error ("Session not found: " ++ configName)
      store := store, signals := [] }
  | some session =>
    match session.processes.find? (fun p => p.pid == pid) with
    | none =>
      { result := .error ("Process " ++ toString pid ++ " not found in session "
          ++ configName)
        store := store, signals := [] }
    | some _foundRecord =>
      if !(alive pid) then
        -- "Process ... has already stopped"
        { result := .ok (), store := store, signals := [] }
      else
        -- `process.kill(pid, 'SIGTERM')` throws (see the doc comment);
        -- the TypeError has no `code`, so the catch rethrows it wrapped.
        { result := .error ("Failed to terminate process " ++ toString pid
            ++ ": process.kill is not a function")
          store := store, signals := [] }

/-- Outcome of a `cleanSession` call. -/
inductive CleanOutcome where
  | noSession
  | refused (runningCount : Nat)
  | cancelled
  | deleted
deriving DecidableEq, Repr

/-- `cleanSession(configName)` from `display.mjs`: refuses while any stored
record's `status` field is `'running'` (it never consults the OS liveness
probe, which is why the probe parameter goes unused), otherwise asks for
confirmation and deletes the session file. -/
def cleanSession (store : SessionStore) (configName : String)
    (alive : Nat → Bool) (confirm : Bool) : SessionStore × CleanOutcome :=
  match readSession store configName with
  | none => (store, .noSession)
  | some session =>
    let runningProcesses :=
      session.processes.filter (fun p => p.status == "running")
    if runningProcesses.length > 0 then
      (store, .refused runningProcesses.length)
    else if !confirm then
      (store, .cancelled)
    else
      ((deleteSession store configName).1, .deleted)

/-! ## String helpers

Executable models of the JS string operations used by the packaging
utilities (`String.prototype.endsWith` / `startsWith` / `includes`). -/

/-- `s.endsWith(suf)`. -/
def strEndsWith (s suf : String) : Bool :=
  decide (suf.data.length ≤ s.data.length) &&
    s.data.drop (s.data.length - suf.data.length) == suf.data

/-- `s.startsWith(pre)`. -/
def strStartsWith (s pre : String) : Bool :=
  s.data.take pre.data.length == pre.data

/-- `s.includes(sub)`: some contiguous run of `s` equals `sub`. -/
def strIncludes (s sub : String) : Bool :=
  (List.range (s.data.length + 1)).any (fun i =>
    (s.data.drop i).take sub.data.length == sub.data)

/-! ## Version & packaging utilities (the chain-build script)

`package.json` contents relevant to `getActualPackageName` are modelled as
a parsed manifest; one directory's slice of the filesystem is a `DirFS`. -/

/-- The parse of a `package.json` (only the field the embedded functions
read). -/
structure Manifest where
  name : Option String
deriving DecidableEq, Repr

/-- One directory of the filesystem as the packaging utilities see it:
whether it exists, its file listing with modification times
(`readdirSync` + `statSync(...).mtimeMs`), and the parse of its
`package.json` (`none` = absent or unparsable, both of which throw in
`getActualPackageName`). -/
structure DirFS where
  present : Bool
  entries : List (String × Int)
  manifest : Option Manifest
deriving DecidableEq, Repr

/-- `getActualPackageName(dir)`: the manifest's declared `name`. -/
def getActualPackageName (fs : DirFS) (dir : String) : Except String String :=
  match fs.manifest with
  | none => .error ("package.json not found in " ++ dir)
  | some packageJson =>
    match packageJson.name with
    | none => .error "package.json is missing \"name\" field"
    | some n => .ok n

/-- `packageNameToFilenamePrefix`: `@scope/name` flattens to `scope--name`
(npm pack's filename convention); unscoped names pass through.  The
`parts.length === 2` test of the source is the two-element pattern match. -/
def filenamePrefixOf (packageName : String) : String :=
  if strStartsWith packageName "@" then
    match (packageName.drop 1).splitOn "/" with
    | [scope, rest] => scope ++ "--" ++ rest
    | _ => packageName
  else packageName

/-- The stable-descending-sort-then-take-first of `getNewestFile`: the
entry with the greatest mtime, earliest listed wins ties (JS `sort` is
stable). -/
def pickNewest (files : List (String × Int)) : Option (String × Int) :=
  files.foldl (fun acc f =>
    match acc with
    | none => some f
    | some b => if f.2 > b.2 then some f else some b) none

/-- `getNewestFile(dir, files)`: full path of the newest file.  (On an
empty list the JS indexes `undefined` and throws; no call site passes an
empty list, and the model returns `""` there.) -/
def getNewestFile (dir : String) (files : List (String × Int)) : String :=
  match pickNewest files with
  | some f => dir ++ "/" ++ f.1
  | none => ""

/-- `findTgzFile(dir, packageName, version)`: ordered resolution of the
produced tarball (exact name, then version matches preferring the filename
prefix, then prefix matches, then config-name matches, then newest overall
with a warning). -/
def findTgzFile (fs : DirFS) (dir packageName version : String) :
    Except String String :=
  if !fs.present then .error ("Directory not found: " ++ dir)
  else
    match getActualPackageName fs dir with
    | .error e => .error e
    | .ok actualPackageName =>
      let fnamePre := filenamePrefixOf actualPackageName
      let expectedName := fnamePre ++ "-" ++ version ++ ".tgz"
      if fs.entries.any (fun e => e.1 == expectedName) then
        .ok (dir ++ "/" ++ expectedName)
      else
        let allTgzFiles := fs.entries.filter (fun e => strEndsWith e.1 ".tgz")
        if allTgzFiles.length == 0 then
          .error ("No .tgz files found in " ++ dir)
        else
          let versionMatches :=
            allTgzFiles.filter (fun e => strIncludes e.1 version)
          if versionMatches.length > 0 then
            let prefMatches := versionMatches.filter (fun e =>
              strStartsWith e.1 (fnamePre ++ "-"))
            if prefMatches.length > 0 then .ok (getNewestFile dir prefMatches)
            else .ok (getNewestFile dir versionMatches)
          else
            let prefMatches := allTgzFiles.filter (fun e =>
              strStartsWith e.1 (fnamePre ++ "-"))
            if prefMatches.length > 0 then .ok (getNewestFile dir prefMatches)
            else
              let configMatches := allTgzFiles.filter (fun e =>
                strStartsWith e.1 (packageName ++ "-"))
              if configMatches.length > 0 then
                .ok (getNewestFile dir configMatches)
              else
                -- console.warn: no exact match, returning newest .tgz file
                .ok (getNewestFile dir allTgzFiles)

/-! ## Alpha version generation -/

/-- The components `generateTimestamp` reads off `new Date()` (`month` is
already the 1-based `getMonth() + 1`). -/
structure DateParts where
  year : Nat
  month : Nat
  day : Nat
  hour : Nat
  minute : Nat
  second : Nat
deriving DecidableEq, Repr

/-- Decimal digits of `n`, most significant first (JS `String(n)`). -/
def natToDecChars (n : Nat) : List Char :=
  if h : n < 10 then [Nat.digitChar n]
  else natToDecChars (n / 10) ++ [Nat.digitChar (n % 10)]
decreasing_by
  exact Nat.div_lt_self (by omega) (by omega)

/-- JS `String(n)`. -/
def natToDec (n : Nat) : String :=
  String.mk (natToDecChars n)

/-- `String(x).padStart(2, '0')`. -/
def padTwo (n : Nat) : String :=
  if n < 10 then "0" ++ natToDec n else natToDec n

/-- `generateTimestamp()`: `YYYYMMDDHHmmss` from the given clock reading. -/
def generateTimestamp (d : DateParts) : String :=
  natToDec d.year ++ padTwo d.month ++ padTwo d.day ++ padTwo d.hour ++
    padTwo d.minute ++ padTwo d.second

/-- `generateAlphaVersion(baseVersion)` with the freshly generated
timestamp as a parameter.  The anchored regex (dash, `alpha`, dot, one or
more digits, end) matches exactly when the version has at least one
trailing digit and the text before the trailing digit run ends in
`"-alpha."`; `replace` drops that suffix and appends dash, `alpha`, dot
and the timestamp, otherwise that new suffix is appended to the unchanged
base. -/
def generateAlphaVersion (timestamp : String) (baseVersion : String) : String :=
  let cs := baseVersion.data
  let digitRun := (cs.reverse.takeWhile Char.isDigit).length
  let stem := cs.take (cs.length - digitRun)
  if 0 < digitRun ∧ strEndsWith (String.mk stem) "-alpha." then
    String.mk (stem.take (stem.length - "-alpha.".data.length)) ++ "-alpha."
      ++ timestamp
  else
    baseVersion ++ "-alpha." ++ timestamp

/-! ## Dependency graph & topological sort (the chain-build script)

`buildDependencyGraph` and `topologicalSort`, with the JS `Map`s as
insertion-ordered association lists. -/

/-- One configuration entry (the fields the graph functions read). -/
structure Item where
  name : String
  depends_on : Option String
deriving DecidableEq, Repr

/-- `buildDependencyGraph(items)`: `name ↦ [depends_on?]`. -/
def buildDependencyGraph (items : List Item) : List (String × List String) :=
  items.foldl (fun graph item =>
    jsMapSet graph item.name
      (match item.depends_on with
       | some d => [d]
       | none => [])) []

/-- The in-degree initialisation and computation of `topologicalSort`
(`inDegree.set(name, 0)` for every graph key, then, for every entry
`[name, deps]` and `dep` of `deps` with `inDegree.has(dep)`,
`inDegree.set(name, inDegree.get(name) + 1)` — note that the *dependent*'s
own counter is incremented). -/
def computeInDegree (graph : List (String × List String)) :
    List (String × Int) :=
  let inDeg0 := (graph.map (fun p => p.1)).foldl
    (fun m n => jsMapSet m n 0) []
  graph.foldl (fun m p =>
    p.2.foldl (fun m2 dep =>
      if jsMapHas m2 dep then
        jsMapSet m2 p.1 ((jsMapGet m2 p.1).getD 0 + 1)
      else m2) m) inDeg0

/-- The body of the Kahn loop for one dequeued `name`: walk the graph, and
for every entry whose dependency list contains `name`, decrement its
in-degree and enqueue it when the new degree is zero. -/
def topoStep (graph : List (String × List String)) (name : String)
    (st : List (String × Int) × List String) :
    List (String × Int) × List String :=
  graph.foldl (fun st2 p =>
    if p.2.contains name then
      let newDegree : Int := (jsMapGet st2.1 p.1).getD 0 - 1
      (jsMapSet st2.1 p.1 newDegree,
       if newDegree == 0 then st2.2 ++ [p.1] else st2.2)
    else st2) st

/-- The `while (queue.length > 0)` loop, fuel-indexed.  Each iteration
dequeues one name, appends `nameToItem.get(name)` to `sorted`, and runs
`topoStep`.  (A name's degree strictly decreases every time it is
decremented, so it is enqueued at most twice overall and the loop performs
at most `2 * graph.length` iterations; the fuel passed by
`topologicalSort` therefore never runs out.) -/
def topoLoop (graph : List (String × List String))
    (nameToItem : List (String × Item)) :
    Nat → List String → List (String × Int) → List (Option Item) →
      List (Option Item)
  | 0, _, _, sorted => sorted
  | _ + 1, [], _, sorted => sorted
  | fuel + 1, name :: rest, inDegree, sorted =>
    let st := topoStep graph name (inDegree, rest)
    topoLoop graph nameToItem fuel st.2 st.1
      (sorted ++ [jsMapGet nameToItem name])

/-- `topologicalSort(graph, items)`: Kahn's algorithm; `none` models the
`Topological sort failed (cycle detected)` throw when fewer names were
emitted than items supplied.  `sorted` holds `nameToItem.get(name)`
results, which in JS could be `undefined` (hence `Option Item`). -/
def topologicalSort (graph : List (String × List String))
    (items : List Item) : Option (List (Option Item)) :=
  let nameToItem := items.foldl (fun m item => jsMapSet m item.name item) []
  let inDegree := computeInDegree graph
  let queue := (inDegree.filter (fun p => p.2 == 0)).map (fun p => p.1)
  let sorted := topoLoop graph nameToItem (2 * graph.length + 1) queue
    inDegree []
  if sorted.length = items.length then some sorted else none

/-- The dependency lookup the chain performs by name: the `depends_on` of
the (first) item called `n`. -/
def parentOf (items : List Item) (n : String) : Option String :=
  (items.find? (fun item => item.name == n)).bind (fun item => item.depends_on)

/-- `k`-fold iteration of `parentOf` (the ancestor chain of a name). -/
def iterParent (items : List Item) : Nat → String → Option String
  | 0, n => some n
  | k + 1, n =>
    match parentOf items n with
    | none => none
    | some d => iterParent items k d

/-- Acyclicity of the `depends_on` relation: no name is its own (non-trivial)
ancestor.  Cycle lengths are bounded by the number of items, so the bounded
form is equivalent for the finite graph and is decidable. -/
def AcyclicDeps (items : List Item) : Prop :=
  ∀ n ∈ items.map Item.name, ∀ k, k < items.length + 1 → 0 < k →
    iterParent items k n ≠ some n

instance (items : List Item) : Decidable (AcyclicDeps items) := by
  unfold AcyclicDeps
  infer_instance

/-- The dependency list of one graph entry (`item.depends_on ? [d] : []`). -/
def depsOf (item : Item) : List String :=
  match item.depends_on with
  | some d => [d]
  | none => []

/-- The in-degree `computeInDegree` assigns to a name: `1` when the item so
named declares a dependency that is itself a graph key, else `0`. -/
def degInit (items : List Item) (n : String) : Int :=
  match parentOf items n with
  | some d => if d ∈ items.map Item.name then 1 else 0
  | none => 0

/-- The in-degree of a name midway through the Kahn loop, after the names
in `processed` have been dequeued (meaningful when every `depends_on`
resolves): `0` once the dependency has been emitted, else `1`. -/
def degDuring (items : List Item) (processed : List String) (n : String) :
    Int :=
  match parentOf items n with
  | none => 0
  | some d => if d ∈ processed then 0 else 1

/-- Names of the items that depend on `name`, in list order (what one pass
of the Kahn loop's inner `for` enqueues when `name` is dequeued). -/
def childNamesOf (items : List Item) (name : String) : List String :=
  (items.filter (fun it => it.depends_on == some name)).map Item.name

/-- The (first) item carrying a given name. -/
def itemOfName (items : List Item) (n : String) : Item :=
  (items.find? (fun it => it.name == n)).getD { name := "", depends_on := none }

/-- Whether an item declares a dependency that is itself a graph key (the
`inDegree.has(dep)` guard of the in-degree computation). -/
def hasResolvedDep (items : List Item) (it : Item) : Bool :=
  match it.depends_on with
  | some d => decide (d ∈ items.map Item.name)
  | none => false

/-- The total in-degree contribution the computation's fold adds at key
`n` while walking `its`. -/
def bumpCount (items : List Item) (its : List Item) (n : String) : Int :=
  (((its.filter (fun it => hasResolvedDep items it)).filter
    (fun it => it.name == n)).length : Int)

/-! ## Concrete fixtures used by the counterexample/failing-input theorems -/

/-- A first recorded process (a sequential build step that already ran). -/
def demoRecA : ProcessRecord :=
  { pid := 11, command := "pnpm build", cwd := "/pkg/a", startTime := "T0"
    endTime := none, exitCode := none, status := "running"
    ptype := "single", groupId := none }

/-- A second recorded process of the same session. -/
def demoRecB : ProcessRecord :=
  { pid := 22, command := "pnpm pack", cwd := "/pkg/b", startTime := "T0"
    endTime := none, exitCode := none, status := "running"
    ptype := "single", groupId := none }

/-- A session holding both records. -/
def demoSession : Session :=
  { configName := "demo", sessionId := "S", startedAt := "T0"
    endedAt := none, processes := [demoRecA, demoRecB], lastUpdated := "T0" }

/-- A record whose stored `status` says `stopped` (its pid may still be
alive — the stored field can be stale). -/
def stoppedRec : ProcessRecord :=
  { pid := 7, command := "pnpm dev", cwd := "/pkg/c", startTime := "T0"
    endTime := some "T1", exitCode := some 0, status := "stopped"
    ptype := "single", groupId := none }

/-- A session whose only record is `stoppedRec`. -/
def stoppedSession : Session :=
  { configName := "cfg", sessionId := "S", startedAt := "T0"
    endedAt := some "T1", processes := [stoppedRec], lastUpdated := "T1" }

/-- A recorded process that is still alive. -/
def watchRec : ProcessRecord :=
  { pid := 4242, command := "pnpm dev", cwd := "/pkg/d", startTime := "T0"
    endTime := none, exitCode := none, status := "running"
    ptype := "single", groupId := none }

/-- A session holding the live record. -/
def watchSession : Session :=
  { configName := "cfg", sessionId := "S", startedAt := "T0"
    endedAt := none, processes := [watchRec], lastUpdated := "T0" }

/-- A directory with a tarball but no `package.json`. -/
def tgzNoManifestDir : DirFS :=
  { present := true, entries := [("foo-1.0.0.tgz", 5)], manifest := none }

/-- A directory with a tarball, an unrelated file and a valid manifest. -/
def tgzLibDir : DirFS :=
  { present := true
    entries := [("qk-lib-1.0.0.tgz", 3), ("readme.md", 1)]
    manifest := some { name := some "qk-lib" } }

/-! ## Store lemmas -/

theorem jsMapGet_not_has {β : Type} (m : List (String × β)) (k : String)
    (h : jsMapHas m k = false) : jsMapGet m k = none := by
  unfold jsMapGet
  have : m.find? (fun p => p.1 == k) = none := by
    rw [List.find?_eq_none]
    intro x hx hpx
    rw [show jsMapHas m k = true from List.any_of_mem hx hpx] at h
    exact Bool.true_eq_false.mp h
  rw [this]
  rfl

theorem readSession_create_self (store : SessionStore) (x sid t : String) :
    readSession (createSession store x sid t) x =
      some { configName := x, sessionId := sid, startedAt := t,
             endedAt := none, processes := [], lastUpdated := t } := by
  unfold readSession createSession
  rw [jsMapGet_set, if_pos rfl]

theorem readSession_delete_self (store : SessionStore) (x : String) :
    readSession (deleteSession store x).1 x = none := by
  unfold readSession deleteSession
  by_cases h : jsMapHas store x = true
  · rw [if_pos h]
    have := jsMapGet_delete store x x
    rw [if_pos rfl] at this
    exact this
  · rw [if_neg h]
    exact jsMapGet_not_has store x (by simpa using h)

/-! ## Claim theorems: session state store -/

/-- C10: `createSession` succeeds even when a session file for that name
already exists: it unconditionally writes a fresh document with an empty
`processes` array (discarding every previously stored `ProcessRecord`), so
a new chain run started under the same name untracks any previously
recorded orphans. -/
theorem C10_createSession_unconditionally_overwrites
    (store : SessionStore) (x sid t : String) :
    readSession (createSession store x sid t) x =
      some { configName := x, sessionId := sid, startedAt := t,
             endedAt := none, processes := [], lastUpdated := t } :=
  readSession_create_self store x sid t

/-- C9: `createSession(x)` then `addProcess(x, r)` then `readSession(x)`
yields a session whose `processes` array is exactly `[r]`, and
`lastUpdated` is non-decreasing across the two writes (the store stamps
the supplied clock readings, which advance monotonically). -/
theorem C9_session_lifecycle (store : SessionStore) (x sid : String)
    (r : ProcessRecord) (t1 t2 : String) (h : t1 ≤ t2) :
    ∃ store2 sess1 sess2,
      addProcess (createSession store x sid t1) x r t2 = Except.ok store2 ∧
      readSession (createSession store x sid t1) x = some sess1 ∧
      readSession store2 x = some sess2 ∧
      sess2.processes = [r] ∧
      sess1.lastUpdated = t1 ∧ sess2.lastUpdated = t2 ∧
      sess1.lastUpdated ≤ sess2.lastUpdated := by
  have hread := readSession_create_self store x sid t1
  refine ⟨jsMapSet (createSession store x sid t1) x
      { configName := x, sessionId := sid, startedAt := t1, endedAt := none,
        processes := [r], lastUpdated := t2 },
    { configName := x, sessionId := sid, startedAt := t1, endedAt := none,
      processes := [], lastUpdated := t1 },
    { configName := x, sessionId := sid, startedAt := t1, endedAt := none,
      processes := [r], lastUpdated := t2 },
    ?_, hread, ?_, rfl, rfl, rfl, h⟩
  · unfold addProcess
    rw [hread]
    rfl
  · unfold readSession
    rw [jsMapGet_set, if_pos rfl]

theorem C9_session_lifecycle_witness :
    ("T1" : String) ≤ "T1" ∧
    ∃ store2 sess1 sess2,
      addProcess (createSession [] "x" "S" "T1") "x" demoRecA "T1" =
        Except.ok store2 ∧
      readSession (createSession [] "x" "S" "T1") "x" = some sess1 ∧
      readSession store2 "x" = some sess2 ∧
      sess2.processes = [demoRecA] ∧
      sess1.lastUpdated = "T1" ∧ sess2.lastUpdated = "T1" ∧
      sess1.lastUpdated ≤ sess2.lastUpdated :=
  ⟨le_refl _, C9_session_lifecycle [] "x" "S" demoRecA "T1" "T1" (le_refl _)⟩

/-- C2, counterexample: with two records persisted, completing the second
process rewrites the session's `processes` array to just the finalized
second record — the first record is *not* preserved, contradicting the
claimed frame property. -/
theorem C2_counterexample :
    demoRecA ∈ demoSession.processes ∧
    onProcessClose [("demo", demoSession)] "demo" demoRecB 0 "T1" =
      Except.ok [("demo",
        { demoSession with processes := [finalizeOnClose demoRecB 0 "T1"],
                           lastUpdated := "T1" })] ∧
    demoRecA ∉ ({ demoSession with
        processes := [finalizeOnClose demoRecB 0 "T1"],
        lastUpdated := "T1" } : Session).processes := by
  refine ⟨by decide, ?_, by decide⟩
  decide

/-- C2, amended: when a process completes (exit or spawn error), the
handler persists, via `updateSession`'s shallow merge, a session whose
`processes` array is exactly the one finalized record (status `stopped`,
`endTime` stamped, and `exitCode` on the exit path); every previously
stored record is discarded, and the other session fields are unchanged
apart from `lastUpdated`. -/
theorem C2_completion_replaces_processes_array
    (store : SessionStore) (name : String) (sess : Session)
    (rec : ProcessRecord) (code : Int) (now : String)
    (h : readSession store name = some sess) :
    (onProcessClose store name rec code now =
        Except.ok (jsMapSet store name
          { sess with processes := [finalizeOnClose rec code now],
                      lastUpdated := now }) ∧
      readSession (jsMapSet store name
          { sess with processes := [finalizeOnClose rec code now],
                      lastUpdated := now }) name =
        some { sess with
               processes := [finalizeOnClose rec code now],
               lastUpdated := now }) ∧
    (onProcessError store name rec now =
        Except.ok (jsMapSet store name
          { sess with processes := [finalizeOnError rec now],
                      lastUpdated := now }) ∧
      readSession (jsMapSet store name
          { sess with processes := [finalizeOnError rec now],
                      lastUpdated := now }) name =
        some { sess with
               processes := [finalizeOnError rec now],
               lastUpdated := now }) := by
  constructor
  · constructor
    · unfold onProcessClose updateSession
      rw [h]
      rfl
    · unfold readSession
      rw [jsMapGet_set, if_pos rfl]
  · constructor
    · unfold onProcessError updateSession
      rw [h]
      rfl
    · unfold readSession
      rw [jsMapGet_set, if_pos rfl]

theorem C2_completion_replaces_processes_array_witness :
    readSession [("demo", demoSession)] "demo" = some demoSession ∧
    ((onProcessClose [("demo", demoSession)] "demo" demoRecB 0 "T1" =
        Except.ok (jsMapSet [("demo", demoSession)] "demo"
          { demoSession with
              processes := [finalizeOnClose demoRecB 0 "T1"],
              lastUpdated := "T1" }) ∧
      readSession (jsMapSet [("demo", demoSession)] "demo"
          { demoSession with
              processes := [finalizeOnClose demoRecB 0 "T1"],
              lastUpdated := "T1" }) "demo" =
        some { demoSession with
               processes := [finalizeOnClose demoRecB 0 "T1"],
               lastUpdated := "T1" }) ∧
     (onProcessError [("demo", demoSession)] "demo" demoRecB "T1" =
        Except.ok (jsMapSet [("demo", demoSession)] "demo"
          { demoSession with
              processes := [finalizeOnError demoRecB "T1"],
              lastUpdated := "T1" }) ∧
      readSession (jsMapSet [("demo", demoSession)] "demo"
          { demoSession with
              processes := [finalizeOnError demoRecB "T1"],
              lastUpdated := "T1" }) "demo" =
        some { demoSession with
               processes := [finalizeOnError demoRecB "T1"],
               lastUpdated := "T1" })) :=
  ⟨by decide,
   C2_completion_replaces_processes_array [("demo", demoSession)] "demo"
     demoSession demoRecB 0 "T1" (by decide)⟩

/-! ## Claim theorems: watch/reaper tool -/

/-- C4: evaluating `terminateProcess` at a session whose recorded pid the
probe reports alive: instead of sending `SIGTERM`, the call throws
`Failed to terminate process ...: process.kill is not a function` (the
local `process` binding shadows the Node global), delivers no signal at
all, and leaves the session untouched. -/
theorem C4_terminate_throws_without_signaling :
    watchRec.status = "running" ∧
    (fun _ : Nat => true) watchRec.pid = true ∧
    terminateProcess [("cfg", watchSession)] "cfg" 4242 (fun _ => true) =
      { result := Except.error
          "Failed to terminate process 4242: process.kill is not a function",
        store := [("cfg", watchSession)],
        signals := [] } := by
  refine ⟨rfl, rfl, ?_⟩
  decide

/-- C5, counterexample: the only record's stored `status` is `stopped`
while the OS probe reports its pid alive, yet `cleanSession` deletes the
session file — refusal is keyed on the stored status, not on actual
liveness, contradicting the claim. -/
theorem C5_counterexample :
    stoppedSession.processes = [stoppedRec] ∧
    (fun _ : Nat => true) stoppedRec.pid = true ∧
    stoppedRec.status = "stopped" ∧
    cleanSession [("cfg", stoppedSession)] "cfg" (fun _ => true) true =
      ([], CleanOutcome.deleted) := by
  refine ⟨rfl, rfl, rfl, ?_⟩
  decide

/-- C5, amended: `cleanSession` refuses to delete exactly when some stored
record's `status` field is `'running'` (the OS liveness probe is never
consulted); when no record is stored as running, the file is deleted after
the interactive confirmation (and kept when the user declines). -/
theorem C5_clean_keyed_on_recorded_status
    (store : SessionStore) (name : String) (sess : Session)
    (alive : Nat → Bool) (confirm : Bool)
    (h : readSession store name = some sess) :
    ((∃ r ∈ sess.processes, r.status = "running") →
       cleanSession store name alive confirm =
         (store, CleanOutcome.refused
           (sess.processes.filter (fun p => p.status == "running")).length)) ∧
    ((∀ r ∈ sess.processes, r.status ≠ "running") → confirm = false →
       cleanSession store name alive confirm = (store, CleanOutcome.cancelled)) ∧
    ((∀ r ∈ sess.processes, r.status ≠ "running") → confirm = true →
       cleanSession store name alive confirm =
         ((deleteSession store name).1, CleanOutcome.deleted) ∧
       readSession (cleanSession store name alive confirm).1 name = none) := by
  have hfilter_pos : (∃ r ∈ sess.processes, r.status = "running") →
      0 < (sess.processes.filter (fun p => p.status == "running")).length := by
    rintro ⟨r, hr, hst⟩
    apply List.length_pos.mpr
    intro hnil
    have : r ∈ sess.processes.filter (fun p => p.status == "running") :=
      List.mem_filter.mpr ⟨hr, by simp [hst]⟩
    rw [hnil] at this
    exact List.not_mem_nil r this
  have hfilter_nil : (∀ r ∈ sess.processes, r.status ≠ "running") →
      sess.processes.filter (fun p => p.status == "running") = [] := by
    intro hall
    apply List.filter_eq_nil_iff.mpr
    intro r hr
    simpa using hall r hr
  refine ⟨?_, ?_, ?_⟩
  · intro hex
    unfold cleanSession
    rw [h]
    simp only [if_pos (hfilter_pos hex)]
  · intro hall hc
    unfold cleanSession
    rw [h]
    have : (sess.processes.filter (fun p => p.status == "running")).length = 0 := by
      rw [hfilter_nil hall]
      rfl
    simp [this, hc]
  · intro hall hc
    have hlen : (sess.processes.filter (fun p => p.status == "running")).length = 0 := by
      rw [hfilter_nil hall]
      rfl
    have hres : cleanSession store name alive confirm =
        ((deleteSession store name).1, CleanOutcome.deleted) := by
      unfold cleanSession
      rw [h]
      simp [hlen, hc]
    refine ⟨hres, ?_⟩
    rw [hres]
    exact readSession_delete_self store name

theorem C5_clean_keyed_on_recorded_status_witness :
    readSession [("cfg", stoppedSession)] "cfg" = some stoppedSession ∧
    ((∃ r ∈ stoppedSession.processes, r.status = "running") →
       cleanSession [("cfg", stoppedSession)] "cfg" (fun _ => false) true =
         ([("cfg", stoppedSession)], CleanOutcome.refused
           (stoppedSession.processes.filter
             (fun p => p.status == "running")).length)) ∧
    ((∀ r ∈ stoppedSession.processes, r.status ≠ "running") → true = false →
       cleanSession [("cfg", stoppedSession)] "cfg" (fun _ => false) true =
         ([("cfg", stoppedSession)], CleanOutcome.cancelled)) ∧
    ((∀ r ∈ stoppedSession.processes, r.status ≠ "running") → true = true →
       cleanSession [("cfg", stoppedSession)] "cfg" (fun _ => false) true =
         ((deleteSession [("cfg", stoppedSession)] "cfg").1,
           CleanOutcome.deleted) ∧
       readSession (cleanSession [("cfg", stoppedSession)] "cfg"
           (fun _ => false) true).1 "cfg" = none) :=
  ⟨by decide,
   C5_clean_keyed_on_recorded_status [("cfg", stoppedSession)] "cfg"
     stoppedSession (fun _ => false) true (by decide)⟩

/-! ## Claim theorems: parallel group fail-fast -/

/-- C3: evaluating the parallel group runner at the failing input
`[cmdA (exit 1, pid 101), cmdB (exit 0, pid 102)]` with `killOnFail`: the
stage does fail (`success = false`, `failedCount = 1`), but both settle
events — including the healthy sibling's — precede every termination
signal in the trace, because `killGroup` only runs after
`Promise.allSettled` has joined.  No sibling is ever signalled while still
running, contradicting the claimed fail-fast cancellation. -/
theorem C3_kill_only_after_all_settled :
    executeCommandsParallel [⟨101, false⟩, ⟨102, true⟩] [0, 1] true =
      ([PEvent.settled 0 101 false, PEvent.settled 1 102 true,
        PEvent.signal 101 "SIGTERM", PEvent.signal 102 "SIGTERM",
        PEvent.signal 101 "SIGKILL", PEvent.signal 102 "SIGKILL"],
       false, 1) := by
  decide

/-! ## Topological sort: normal forms of the three JS `Map`s -/

/-- Folding `jsMapSet` over fresh, pairwise-distinct keys just appends the
entries in order. -/
theorem foldl_jsMapSet_fresh {α β : Type} (key : α → String) (f : α → β) :
    ∀ (xs : List α) (acc : List (String × β)),
      (∀ x ∈ xs, ∀ p ∈ acc, p.1 ≠ key x) → (xs.map key).Nodup →
      xs.foldl (fun m x => jsMapSet m (key x) (f x)) acc
        = acc ++ xs.map (fun x => (key x, f x)) := by
  intro xs
  induction xs with
  | nil => intro acc _ _; simp
  | cons x t ih =>
    intro acc hfresh hnd
    have hany : acc.any (fun p => p.1 == key x) = false := by
      rw [List.any_eq_false]
      intro p hp
      simpa using hfresh x (by simp) p hp
    have hset : jsMapSet acc (key x) (f x) = acc ++ [(key x, f x)] := by
      unfold jsMapSet
      rw [hany]
      simp
    rw [List.foldl_cons, hset, ih (acc ++ [(key x, f x)]) ?fresh ?nd]
    · simp
    case fresh =>
      intro y hy p hp
      rcases List.mem_append.mp hp with hpa | hpn
      · exact hfresh y (by simp [hy]) p hpa
      · have : p = (key x, f x) := by simpa using hpn
        subst this
        simp only [List.map_cons, List.nodup_cons] at hnd
        intro e
        apply hnd.1
        have e' : key x = key y := e
        rw [e']
        exact List.mem_map_of_mem key hy
    case nd =>
      simp only [List.map_cons, List.nodup_cons] at hnd
      exact hnd.2

/-- With unique names, `find?` by an item's own name yields that item. -/
theorem find?_name_self (items : List Item)
    (hnd : (items.map Item.name).Nodup) :
    ∀ it ∈ items, items.find? (fun x => x.name == it.name) = some it := by
  induction items with
  | nil => intro it h; exact absurd h (List.not_mem_nil it)
  | cons h t ih =>
    intro it hit
    simp only [List.map_cons, List.nodup_cons] at hnd
    rcases List.mem_cons.mp hit with rfl | hmem
    · rw [List.find?_cons_of_pos _ (by simp)]
    · have hne : (h.name == it.name) = false := by
        have : it.name ∈ t.map Item.name := List.mem_map_of_mem Item.name hmem
        simp only [beq_eq_false_iff_ne, ne_eq]
        intro e
        exact hnd.1 (e ▸ this)
      rw [List.find?_cons_of_neg _ (by simp [hne])]
      exact ih hnd.2 it hmem

theorem parentOf_eq_depends_on (items : List Item)
    (hnd : (items.map Item.name).Nodup) (it : Item) (hit : it ∈ items) :
    parentOf items it.name = it.depends_on := by
  unfold parentOf
  rw [find?_name_self items hnd it hit]
  rfl

theorem find?_name_mem (items : List Item) (n : String)
    (hn : n ∈ items.map Item.name) :
    ∃ it, items.find? (fun it => it.name == n) = some it ∧
      it.name = n ∧ it ∈ items := by
  rcases List.mem_map.mp hn with ⟨it0, hit0, hname⟩
  cases hf : items.find? (fun it => it.name == n) with
  | none =>
    rw [List.find?_eq_none] at hf
    exact absurd (by simp [hname]) (hf it0 hit0)
  | some it =>
    exact ⟨it, rfl, by simpa using List.find?_some hf,
      List.mem_of_find?_eq_some hf⟩

theorem parentOf_resolves (items : List Item)
    (hRes : ∀ it ∈ items, ∀ d, it.depends_on = some d →
      d ∈ items.map Item.name)
    (n d : String) (h : parentOf items n = some d) :
    d ∈ items.map Item.name := by
  unfold parentOf at h
  cases hf : items.find? (fun it => it.name == n) with
  | none => rw [hf] at h; exact absurd h (by simp)
  | some it =>
    rw [hf] at h
    exact hRes it (List.mem_of_find?_eq_some hf) d h

theorem jsMapGet_nameToItem (items : List Item) (n : String) :
    jsMapGet (items.map (fun it => (it.name, it))) n
      = items.find? (fun it => it.name == n) := by
  induction items with
  | nil => rfl
  | cons h t ih =>
    unfold jsMapGet at *
    by_cases hp : (h.name == n) = true
    · simp only [List.map_cons, List.find?_cons, hp]
      rfl
    · have hp' : (h.name == n) = false := by simpa using hp
      simp only [List.map_cons, List.find?_cons, hp']
      exact ih

theorem itemOfName_spec (items : List Item) (n : String)
    (hn : n ∈ items.map Item.name) :
    items.find? (fun it => it.name == n) = some (itemOfName items n) ∧
      (itemOfName items n).name = n ∧ itemOfName items n ∈ items := by
  rcases find?_name_mem items n hn with ⟨it, hf, hname, hmem⟩
  unfold itemOfName
  rw [hf]
  exact ⟨rfl, hname, hmem⟩

theorem parentOf_eq_itemOfName (items : List Item) (n : String)
    (hn : n ∈ items.map Item.name) :
    parentOf items n = (itemOfName items n).depends_on := by
  rcases itemOfName_spec items n hn with ⟨hf, _, _⟩
  unfold parentOf
  rw [hf]
  rfl

theorem itemOfName_of_mem (items : List Item)
    (hnd : (items.map Item.name).Nodup) (it : Item) (hit : it ∈ items) :
    itemOfName items it.name = it := by
  unfold itemOfName
  rw [find?_name_self items hnd it hit]
  rfl

/-! ## Functional-form association maps -/

theorem jsMapHas_mapfn_iff {β : Type} (ks : List String) (g : String → β)
    (k : String) :
    jsMapHas (ks.map (fun n => (n, g n))) k = true ↔ k ∈ ks := by
  unfold jsMapHas
  rw [List.any_eq_true]
  constructor
  · rintro ⟨p, hp, hbeq⟩
    rcases List.mem_map.mp hp with ⟨n, hn, rfl⟩
    have : n = k := by simpa using hbeq
    exact this ▸ hn
  · intro hk
    exact ⟨(k, g k), List.mem_map_of_mem _ hk, by simp⟩

theorem jsMapGet_mapfn_mem {β : Type} (ks : List String) (g : String → β)
    (k : String) (hk : k ∈ ks) :
    jsMapGet (ks.map (fun n => (n, g n))) k = some (g k) := by
  induction ks with
  | nil => exact absurd hk (List.not_mem_nil k)
  | cons n t ih =>
    unfold jsMapGet at *
    by_cases hp : (n == k) = true
    · have : n = k := by simpa using hp
      subst this
      simp [List.find?_cons]
    · have hp' : (n == k) = false := by simpa using hp
      simp only [List.map_cons, List.find?_cons, hp']
      have hk' : k ∈ t := by
        rcases List.mem_cons.mp hk with e | h
        · exact absurd (by simp [e]) hp
        · exact h
      exact ih hk'

theorem jsMapSet_mapfn_mem {β : Type} (ks : List String) (g : String → β)
    (k : String) (v : β) (hk : k ∈ ks) :
    jsMapSet (ks.map (fun n => (n, g n))) k v
      = ks.map (fun n => (n, if n = k then v else g n)) := by
  unfold jsMapSet
  have hany : ((ks.map fun n => (n, g n)).any (fun p => p.1 == k)) = true := by
    have := (jsMapHas_mapfn_iff ks g k).mpr hk
    unfold jsMapHas at this
    exact this
  rw [if_pos hany, List.map_map]
  apply List.map_congr_left
  intro n _
  by_cases h : n = k
  · subst h
    simp
  · simp [h]

/-! ## In-degree characterisation -/

theorem bumpCount_cons_skip (items : List Item) (it : Item) (rest : List Item)
    (n : String) (h : hasResolvedDep items it = false) :
    bumpCount items (it :: rest) n = bumpCount items rest n := by
  unfold bumpCount
  rw [List.filter_cons, if_neg (by simp [h])]

theorem bumpCount_cons_hit (items : List Item) (it : Item) (rest : List Item)
    (n : String) (h : hasResolvedDep items it = true) :
    bumpCount items (it :: rest) n
      = (if it.name = n then 1 else 0) + bumpCount items rest n := by
  unfold bumpCount
  rw [List.filter_cons, if_pos (by simp [h]), List.filter_cons]
  by_cases he : it.name = n
  · rw [if_pos (by simp [he]), if_pos he]
    simp only [List.length_cons]
    push_cast
    omega
  · rw [if_neg (by simp [he]), if_neg he]
    simp

theorem inDegreeFold_mapfn (items : List Item) :
    ∀ (its : List Item) (g : String → Int),
      (∀ it ∈ its, it.name ∈ items.map Item.name) →
      (its.map (fun it => (it.name, depsOf it))).foldl
        (fun m p =>
          p.2.foldl (fun m2 dep =>
            if jsMapHas m2 dep then
              jsMapSet m2 p.1 ((jsMapGet m2 p.1).getD 0 + 1)
            else m2) m)
        ((items.map Item.name).map (fun n => (n, g n)))
      = (items.map Item.name).map
          (fun n => (n, g n + bumpCount items its n)) := by
  intro its
  induction its with
  | nil =>
    intro g _
    simp only [List.map_nil, List.foldl_nil]
    apply List.map_congr_left
    intro n _
    simp [bumpCount]
  | cons it rest ih =>
    intro g hsub
    have hname : it.name ∈ items.map Item.name := hsub it (by simp)
    rw [List.map_cons, List.foldl_cons]
    cases hdep : it.depends_on with
    | none =>
      have hdeps : depsOf it = [] := by simp [depsOf, hdep]
      rw [hdeps, List.foldl_nil,
        ih g (fun x hx => hsub x (by simp [hx]))]
      apply List.map_congr_left
      intro n _
      rw [bumpCount_cons_skip items it rest n (by simp [hasResolvedDep, hdep])]
    | some d =>
      have hdeps : depsOf it = [d] := by simp [depsOf, hdep]
      rw [hdeps]
      simp only [List.foldl_cons, List.foldl_nil]
      by_cases hd : d ∈ items.map Item.name
      · have hhas : jsMapHas ((items.map Item.name).map
            (fun n => (n, g n))) d = true :=
          (jsMapHas_mapfn_iff _ _ d).mpr hd
        rw [if_pos hhas, jsMapGet_mapfn_mem _ _ it.name hname]
        simp only [Option.getD_some]
        rw [jsMapSet_mapfn_mem _ _ it.name (g it.name + 1) hname,
          ih _ (fun x hx => hsub x (by simp [hx]))]
        apply List.map_congr_left
        intro n _
        rw [bumpCount_cons_hit items it rest n
          (by simp [hasResolvedDep, hdep, hd])]
        by_cases he : n = it.name
        · subst he
          rw [if_pos rfl, if_pos rfl]
          congr 1
          omega
        · rw [if_neg he, if_neg (fun e => he e.symm)]
          congr 1
          omega
      · have hhas : jsMapHas ((items.map Item.name).map
            (fun n => (n, g n))) d = false := by
          cases hh : jsMapHas ((items.map Item.name).map
            (fun n => (n, g n))) d
          · rfl
          · exact absurd ((jsMapHas_mapfn_iff _ _ d).mp hh) hd
        rw [if_neg (by rw [hhas]; exact Bool.false_ne_true),
          ih g (fun x hx => hsub x (by simp [hx]))]
        apply List.map_congr_left
        intro n _
        rw [bumpCount_cons_skip items it rest n
          (by simp [hasResolvedDep, hdep, hd])]

theorem filter_name_single (items : List Item)
    (hnd : (items.map Item.name).Nodup) (it0 : Item) (h : it0 ∈ items) :
    items.filter (fun it => it.name == it0.name) = [it0] := by
  induction items with
  | nil => exact absurd h (List.not_mem_nil it0)
  | cons hd t ih =>
    simp only [List.map_cons, List.nodup_cons] at hnd
    rcases List.mem_cons.mp h with rfl | hmem
    · rw [List.filter_cons, if_pos (by simp)]
      have : t.filter (fun it => it.name == it0.name) = [] := by
        rw [List.filter_eq_nil_iff]
        intro x hx
        simp only [beq_iff_eq]
        intro e
        exact hnd.1 (e ▸ List.mem_map_of_mem Item.name hx)
      rw [this]
    · have hne : (hd.name == it0.name) = false := by
        simp only [beq_eq_false_iff_ne, ne_eq]
        intro e
        exact hnd.1 (e ▸ List.mem_map_of_mem Item.name hmem)
      rw [List.filter_cons, if_neg (by simp [hne])]
      exact ih hnd.2 hmem

theorem bumpCount_full (items : List Item)
    (hnd : (items.map Item.name).Nodup) (n : String) :
    (0 : Int) + bumpCount items items n = degInit items n := by
  rw [zero_add]
  by_cases hn : n ∈ items.map Item.name
  · rcases itemOfName_spec items n hn with ⟨hf, hname, hmem⟩
    have hswap : bumpCount items items n
        = (((items.filter (fun it => it.name == n)).filter
            (fun it => hasResolvedDep items it)).length : Int) := by
      unfold bumpCount
      rw [List.filter_filter, List.filter_filter]
      congr 1
      apply congrArg List.length
      apply List.filter_congr
      intro x _
      rw [Bool.and_comm]
    have hsingle : items.filter (fun it => it.name == n) = [itemOfName items n] := by
      have := filter_name_single items hnd (itemOfName items n) hmem
      rw [hname] at this
      exact this
    rw [hswap, hsingle]
    have hparent : parentOf items n = (itemOfName items n).depends_on :=
      parentOf_eq_itemOfName items n hn
    unfold degInit
    rw [hparent]
    cases hdep : (itemOfName items n).depends_on with
    | none =>
      have hres : hasResolvedDep items (itemOfName items n) = false := by
        simp [hasResolvedDep, hdep]
      rw [List.filter_cons, if_neg (by simp [hres])]
      simp
    | some d =>
      by_cases hd : d ∈ items.map Item.name
      · have hres : hasResolvedDep items (itemOfName items n) = true := by
          simp [hasResolvedDep, hdep, hd]
        rw [List.filter_cons, if_pos (by simp [hres])]
        simp [hd]
      · have hres : hasResolvedDep items (itemOfName items n) = false := by
          simp [hasResolvedDep, hdep, hd]
        rw [List.filter_cons, if_neg (by simp [hres])]
        simp [hd]
  · have hparent : parentOf items n = none := by
      unfold parentOf
      have : items.find? (fun it => it.name == n) = none := by
        rw [List.find?_eq_none]
        intro x hx
        simp only [beq_iff_eq]
        intro e
        exact hn (e ▸ List.mem_map_of_mem Item.name hx)
      rw [this]
      rfl
    have hzero : bumpCount items items n = 0 := by
      unfold bumpCount
      have : (items.filter (fun it => hasResolvedDep items it)).filter
          (fun it => it.name == n) = [] := by
        rw [List.filter_eq_nil_iff]
        intro x hx
        simp only [beq_iff_eq]
        intro e
        have : x ∈ items := (List.mem_filter.mp hx).1
        exact hn (e ▸ List.mem_map_of_mem Item.name this)
      rw [this]
      rfl
    rw [hzero]
    unfold degInit
    rw [hparent]

theorem buildDependencyGraph_eq (items : List Item)
    (hnd : (items.map Item.name).Nodup) :
    buildDependencyGraph items
      = items.map (fun it => (it.name, depsOf it)) := by
  unfold buildDependencyGraph
  have := foldl_jsMapSet_fresh (α := Item) Item.name depsOf items []
    (by simp) hnd
  simpa [depsOf] using this

theorem computeInDegree_eq (items : List Item)
    (hnd : (items.map Item.name).Nodup) :
    computeInDegree (buildDependencyGraph items)
      = (items.map Item.name).map (fun n => (n, degInit items n)) := by
  rw [buildDependencyGraph_eq items hnd]
  unfold computeInDegree
  have hkeys : (items.map (fun it => (it.name, depsOf it))).map (fun p => p.1)
      = items.map Item.name := by
    rw [List.map_map]
    rfl
  rw [hkeys]
  have hinit : (items.map Item.name).foldl (fun m n => jsMapSet m n 0) []
      = (items.map Item.name).map (fun n => (n, (0 : Int))) := by
    have := foldl_jsMapSet_fresh (α := String) id (fun _ => (0 : Int))
      (items.map Item.name) [] (by simp) (by simpa using hnd)
    simpa using this
  rw [hinit,
    inDegreeFold_mapfn items items (fun _ => 0)
      (fun it hit => List.mem_map_of_mem _ hit)]
  apply List.map_congr_left
  intro n _
  rw [bumpCount_full items hnd n]

theorem degInit_zero_iff (items : List Item)
    (hRes : ∀ it ∈ items, ∀ d, it.depends_on = some d →
      d ∈ items.map Item.name)
    (n : String) :
    (degInit items n = 0) ↔ parentOf items n = none := by
  unfold degInit
  cases hp : parentOf items n with
  | none => simp
  | some d =>
    have hd : d ∈ items.map Item.name := parentOf_resolves items hRes n d hp
    simp [hd]

theorem degInit_eq_degDuring_nil (items : List Item)
    (hRes : ∀ it ∈ items, ∀ d, it.depends_on = some d →
      d ∈ items.map Item.name)
    (n : String) :
    degInit items n = degDuring items [] n := by
  unfold degInit degDuring
  cases hp : parentOf items n with
  | none => rfl
  | some d =>
    have hd : d ∈ items.map Item.name := parentOf_resolves items hRes n d hp
    simp [hd]

/-- C7, counterexample: with items `a` (no dependency) and `b`
(depends on `a`), exactly one other item depends on `a`, yet the computed
in-degree of `a` is `0` (and `b`'s is `1`): the code increments the
*dependent*'s counter, not the dependency's, so a node's in-degree does not
count how many other nodes depend on it. -/
theorem C7_counterexample :
    jsMapGet (computeInDegree (buildDependencyGraph
      [{ name := "a", depends_on := none },
       { name := "b", depends_on := some "a" }])) "a" = some 0 ∧
    (([{ name := "a", depends_on := none },
       { name := "b", depends_on := some "a" }] : List Item).filter
      (fun it => it.depends_on == some "a")).length = 1 := by
  decide

/-- C7, amended: in the Kahn in-degree computation, a name's in-degree
counts the dependencies the item so named *itself* declares (edges run
dependency → dependent): for every item list with unique names and every
name `n` in it, `n`'s computed in-degree is `1` when `n`'s own
`depends_on` names a graph key and `0` otherwise — not the number of other
items whose `depends_on` is `n`. -/
theorem C7_indegree_counts_own_dependency (items : List Item)
    (hnd : (items.map Item.name).Nodup) (n : String)
    (hn : n ∈ items.map Item.name) :
    jsMapGet (computeInDegree (buildDependencyGraph items)) n
      = some (degInit items n) := by
  rw [computeInDegree_eq items hnd]
  exact jsMapGet_mapfn_mem _ _ n hn

theorem C7_indegree_counts_own_dependency_witness :
    (([{ name := "a", depends_on := none },
       { name := "b", depends_on := some "a" }] : List Item).map
      Item.name).Nodup ∧
    "b" ∈ ([{ name := "a", depends_on := none },
            { name := "b", depends_on := some "a" }] : List Item).map
      Item.name ∧
    jsMapGet (computeInDegree (buildDependencyGraph
      [{ name := "a", depends_on := none },
       { name := "b", depends_on := some "a" }])) "b"
      = some (degInit
          [{ name := "a", depends_on := none },
           { name := "b", depends_on := some "a" }] "b") :=
  ⟨by decide, by decide,
   C7_indegree_counts_own_dependency
     [{ name := "a", depends_on := none },
      { name := "b", depends_on := some "a" }] (by decide) "b" (by decide)⟩

/-! ## The Kahn loop: one dequeue step -/

theorem mem_childNamesOf (items : List Item)
    (hnd : (items.map Item.name).Nodup) (name c : String) :
    c ∈ childNamesOf items name ↔
      c ∈ items.map Item.name ∧ parentOf items c = some name := by
  unfold childNamesOf
  constructor
  · intro hc
    rcases List.mem_map.mp hc with ⟨it, hfil, rfl⟩
    have hmem : it ∈ items := (List.mem_filter.mp hfil).1
    have hdep : it.depends_on = some name := by
      have := (List.mem_filter.mp hfil).2
      simpa using this
    exact ⟨List.mem_map_of_mem Item.name hmem,
      (parentOf_eq_depends_on items hnd it hmem).trans hdep⟩
  · rintro ⟨hc, hp⟩
    have hdep : (itemOfName items c).depends_on = some name :=
      (parentOf_eq_itemOfName items c hc).symm.trans hp
    rcases itemOfName_spec items c hc with ⟨_, hname, hmem⟩
    have : itemOfName items c ∈ items.filter
        (fun it => it.depends_on == some name) :=
      List.mem_filter.mpr ⟨hmem, by simp [hdep]⟩
    have := List.mem_map_of_mem Item.name this
    rw [hname] at this
    exact this

theorem topoStep_aux (items : List Item)
    (hnd : (items.map Item.name).Nodup) (name : String) :
    ∀ (its : List Item) (g : String → Int) (q : List String),
      (∀ it ∈ its, it ∈ items) →
      (its.map Item.name).Nodup →
      (∀ it ∈ its, it.depends_on = some name → g it.name = 1) →
      topoStep (its.map (fun it => (it.name, depsOf it))) name
        ((items.map Item.name).map (fun n => (n, g n)), q)
      = ((items.map Item.name).map
          (fun n => (n, if n ∈ childNamesOf its name then 0 else g n)),
         q ++ childNamesOf its name) := by
  intro its
  induction its with
  | nil =>
    intro g q _ _ _
    unfold topoStep childNamesOf
    simp
  | cons it rest ih =>
    intro g q hsub hndits hchild
    have hname : it.name ∈ items.map Item.name :=
      List.mem_map_of_mem Item.name (hsub it (by simp))
    simp only [List.map_cons, List.nodup_cons] at hndits
    unfold topoStep
    rw [List.map_cons, List.foldl_cons]
    show (List.map (fun it => (it.name, depsOf it)) rest).foldl _ _ = _
    cases hdep : it.depends_on with
    | none =>
      have hdeps : depsOf it = [] := by simp [depsOf, hdep]
      have hcn : childNamesOf (it :: rest) name = childNamesOf rest name := by
        unfold childNamesOf
        rw [List.filter_cons, if_neg (by simp [hdep])]
      have hcont : (depsOf it).contains name = false := by
        rw [hdeps]
        rfl
      rw [hcont]
      show topoStep (List.map (fun it => (it.name, depsOf it)) rest) name
          ((items.map Item.name).map (fun n => (n, g n)), q) = _
      rw [ih g q (fun x hx => hsub x (by simp [hx])) hndits.2
        (fun x hx hd => hchild x (by simp [hx]) hd), hcn]
    | some d =>
      have hdeps : depsOf it = [d] := by simp [depsOf, hdep]
      by_cases hdname : d = name
      · subst hdname
        have hcont : (depsOf it).contains d = true := by
          rw [hdeps]
          simp [List.contains_cons]
        rw [hcont]
        have hg1 : g it.name = 1 := hchild it (by simp) hdep
        have hcn : childNamesOf (it :: rest) d
            = it.name :: childNamesOf rest d := by
          unfold childNamesOf
          rw [List.filter_cons, if_pos (by simp [hdep])]
          rfl
        simp only [if_pos rfl]
        rw [jsMapGet_mapfn_mem _ _ it.name hname]
        simp only [Option.getD_some, hg1]
        have hz : (1 : Int) - 1 = 0 := by omega
        rw [hz]
        have hbeq : ((0 : Int) == 0) = true := by decide
        rw [hbeq]
        simp only [if_pos rfl]
        rw [jsMapSet_mapfn_mem _ _ it.name 0 hname]
        show topoStep (List.map (fun it => (it.name, depsOf it)) rest) d
            ((items.map Item.name).map
              (fun n => (n, if n = it.name then 0 else g n)),
             q ++ [it.name]) = _
        rw [ih (fun n => if n = it.name then 0 else g n) (q ++ [it.name])
          (fun x hx => hsub x (by simp [hx])) hndits.2 ?childcond]
        · rw [hcn, Prod.mk.injEq]
          refine ⟨?_, ?_⟩
          · apply List.map_congr_left
            intro n _
            by_cases hn1 : n ∈ childNamesOf rest d
            · rw [if_pos hn1, if_pos (by simp [hn1])]
            · rw [if_neg hn1]
              by_cases hn2 : n = it.name
              · rw [if_pos hn2, if_pos (by simp [hn2])]
              · rw [if_neg hn2, if_neg (by
                  intro hcontra
                  rcases List.mem_cons.mp hcontra with e | e
                  · exact hn2 e
                  · exact hn1 e)]
          · simp
        case childcond =>
          intro x hx hxdep
          have hne : x.name ≠ it.name := by
            intro e
            exact hndits.1 (e ▸ List.mem_map_of_mem Item.name hx)
          show (if x.name = it.name then (0 : Int) else g x.name) = 1
          rw [if_neg hne]
          exact hchild x (by simp [hx]) hxdep
      · have hcont : (depsOf it).contains name = false := by
          rw [hdeps]
          simp [List.contains_cons]
          exact fun e => hdname e.symm
        rw [hcont]
        have hcn : childNamesOf (it :: rest) name = childNamesOf rest name := by
          unfold childNamesOf
          rw [List.filter_cons, if_neg (by simp [hdep, hdname])]
        show topoStep (List.map (fun it => (it.name, depsOf it)) rest) name
            ((items.map Item.name).map (fun n => (n, g n)), q) = _
        rw [ih g q (fun x hx => hsub x (by simp [hx])) hndits.2
          (fun x hx hd => hchild x (by simp [hx]) hd), hcn]

theorem degDuring_of_parent (items : List Item) (processed : List String)
    (n d : String) (h : parentOf items n = some d) :
    degDuring items processed n = if d ∈ processed then 0 else 1 := by
  unfold degDuring
  rw [h]

theorem degDuring_of_root (items : List Item) (processed : List String)
    (n : String) (h : parentOf items n = none) :
    degDuring items processed n = 0 := by
  unfold degDuring
  rw [h]

theorem topoStep_eq (items : List Item)
    (hnd : (items.map Item.name).Nodup) (name : String)
    (processed rest : List String) (hnp : name ∉ processed) :
    topoStep (items.map (fun it => (it.name, depsOf it))) name
      ((items.map Item.name).map (fun n => (n, degDuring items processed n)),
       rest)
    = ((items.map Item.name).map
        (fun n => (n, degDuring items (processed ++ [name]) n)),
       rest ++ childNamesOf items name) := by
  rw [topoStep_aux items hnd name items (degDuring items processed) rest
    (fun _ h => h) hnd ?cond]
  · rw [Prod.mk.injEq]
    refine ⟨?_, rfl⟩
    apply List.map_congr_left
    intro n hn
    congr 1
    by_cases hc : n ∈ childNamesOf items name
    · rw [if_pos hc]
      have hpar := (mem_childNamesOf items hnd name n).mp hc
      rw [degDuring_of_parent items _ n name hpar.2,
        if_pos (by simp : name ∈ processed ++ [name])]
    · rw [if_neg hc]
      cases hp : parentOf items n with
      | none => rw [degDuring_of_root items _ n hp, degDuring_of_root items _ n hp]
      | some d =>
        have hdn : d ≠ name := by
          intro e
          subst e
          exact hc ((mem_childNamesOf items hnd d n).mpr ⟨hn, hp⟩)
        rw [degDuring_of_parent items _ n d hp, degDuring_of_parent items _ n d hp]
        by_cases hdp : d ∈ processed
        · rw [if_pos hdp, if_pos (by simp [hdp])]
        · rw [if_neg hdp, if_neg (by simp [hdp, hdn])]
  case cond =>
    intro it hit hdep
    have h1 : parentOf items it.name = some name :=
      (parentOf_eq_depends_on items hnd it hit).trans hdep
    rw [degDuring_of_parent items processed it.name name h1, if_neg hnp]

/-! ## Acyclicity: every name is eventually dequeued -/

theorem iterParent_add (items : List Item) :
    ∀ (i j : Nat) (n : String),
      iterParent items (i + j) n
        = (iterParent items i n).bind (fun m => iterParent items j m) := by
  intro i
  induction i with
  | zero =>
    intro j n
    rw [Nat.zero_add]
    rfl
  | succ i ih =>
    intro j n
    rw [Nat.succ_add]
    cases hp : parentOf items n with
    | none => simp [iterParent, hp]
    | some d => simp [iterParent, hp, ih]

theorem iterParent_one (items : List Item) (n : String) :
    iterParent items 1 n = parentOf items n := by
  cases hp : parentOf items n <;> simp [iterParent, hp]

/-- If the names outside `P` are closed under taking the (resolving)
dependency, then — the dependency relation being acyclic — there are no
names outside `P` at all. -/
theorem pending_empty (items : List Item)
    (hAcy : AcyclicDeps items) (P : List String)
    (hclosed : ∀ n ∈ items.map Item.name, n ∉ P →
      ∃ d, parentOf items n = some d ∧ d ∈ items.map Item.name ∧ d ∉ P) :
    ∀ n ∈ items.map Item.name, n ∈ P := by
  intro n0 hn0
  by_contra hn0P
  have chain : ∀ k, ∃ m, iterParent items k n0 = some m ∧
      m ∈ items.map Item.name ∧ m ∉ P := by
    intro k
    induction k with
    | zero => exact ⟨n0, rfl, hn0, hn0P⟩
    | succ k ihk =>
      rcases ihk with ⟨m, hm, hmns, hmP⟩
      rcases hclosed m hmns hmP with ⟨d, hd, hdns, hdP⟩
      refine ⟨d, ?_, hdns, hdP⟩
      rw [iterParent_add items k 1 n0, hm]
      show iterParent items 1 m = some d
      rw [iterParent_one, hd]
  have hNlen : (items.map Item.name).length = items.length :=
    List.length_map items Item.name
  have hmaps : ∀ k ∈ Finset.range ((items.map Item.name).length + 1),
      (iterParent items k n0).getD "" ∈ (items.map Item.name).toFinset := by
    intro k _
    rcases chain k with ⟨m, hm, hmns, _⟩
    rw [hm]
    simpa using hmns
  have hcard : (items.map Item.name).toFinset.card
      < (Finset.range ((items.map Item.name).length + 1)).card := by
    rw [Finset.card_range]
    have := List.toFinset_card_le (items.map Item.name)
    omega
  rcases Finset.exists_ne_map_eq_of_card_lt_of_maps_to hcard hmaps with
    ⟨a, ha, b, hb, hab, heq⟩
  have key : ∀ a b : Nat, a < b → b < (items.map Item.name).length + 1 →
      (iterParent items a n0).getD "" = (iterParent items b n0).getD "" →
      False := by
    intro a b hlt hbN hval
    rcases chain a with ⟨x, hxa, hxns, _⟩
    rcases chain b with ⟨y, hyb, _, _⟩
    have hxy : x = y := by
      rw [hxa, hyb] at hval
      simpa using hval
    subst hxy
    have hsplit : iterParent items b n0 = (iterParent items a n0).bind
        (fun m => iterParent items (b - a) m) := by
      rw [← iterParent_add items a (b - a) n0,
        Nat.add_sub_cancel' (le_of_lt hlt)]
    rw [hxa, hyb] at hsplit
    have hcycle : iterParent items (b - a) x = some x := by
      simpa using hsplit.symm
    exact hAcy x hxns (b - a) (by omega) (by omega) hcycle
  rcases Nat.lt_or_ge a b with h | h
  · exact key a b h (Finset.mem_range.mp hb) heq
  · have hba : b < a := by omega
    exact key b a hba (Finset.mem_range.mp ha) heq.symm

/-! ## The Kahn loop: full-run invariant -/

theorem topoLoop_zero (graph : List (String × List String))
    (nti : List (String × Item)) (queue : List String)
    (inDeg : List (String × Int)) (sorted : List (Option Item)) :
    topoLoop graph nti 0 queue inDeg sorted = sorted := rfl

theorem topoLoop_nil (graph : List (String × List String))
    (nti : List (String × Item)) (fuel : Nat)
    (inDeg : List (String × Int)) (sorted : List (Option Item)) :
    topoLoop graph nti (fuel + 1) [] inDeg sorted = sorted := rfl

theorem topoLoop_cons (graph : List (String × List String))
    (nti : List (String × Item)) (fuel : Nat) (name : String)
    (rest : List String) (inDeg : List (String × Int))
    (sorted : List (Option Item)) :
    topoLoop graph nti (fuel + 1) (name :: rest) inDeg sorted
      = topoLoop graph nti fuel (topoStep graph name (inDeg, rest)).2
          (topoStep graph name (inDeg, rest)).1
          (sorted ++ [jsMapGet nti name]) := rfl

theorem topoLoop_spec (items : List Item)
    (hnd : (items.map Item.name).Nodup)
    (hRes : ∀ it ∈ items, ∀ d, it.depends_on = some d →
      d ∈ items.map Item.name)
    (hAcy : AcyclicDeps items) :
    ∀ (fuel : Nat) (processed queue : List String),
      (processed ++ queue).Nodup →
      (∀ n ∈ processed ++ queue, n ∈ items.map Item.name) →
      (∀ n ∈ items.map Item.name,
        ((parentOf items n = none ∨
          ∃ d, parentOf items n = some d ∧ d ∈ processed) ↔
         n ∈ processed ++ queue)) →
      (∀ n ∈ processed, ∀ d, parentOf items n = some d →
        d ∈ processed ∧ List.indexOf d processed < List.indexOf n processed) →
      (items.length - processed.length ≤ fuel) →
      ∃ final : List String,
        topoLoop (items.map (fun it => (it.name, depsOf it)))
            (items.map (fun it => (it.name, it))) fuel queue
            ((items.map Item.name).map
              (fun n => (n, degDuring items processed n)))
            (processed.map (fun n =>
              jsMapGet (items.map (fun it => (it.name, it))) n))
          = final.map (fun n =>
              jsMapGet (items.map (fun it => (it.name, it))) n) ∧
        final.Nodup ∧ (∀ n, n ∈ final ↔ n ∈ items.map Item.name) ∧
        (∀ n ∈ final, ∀ d, parentOf items n = some d →
          d ∈ final ∧ List.indexOf d final < List.indexOf n final) := by
  intro fuel
  induction fuel with
  | zero =>
    intro processed queue h1 h2 _ h4 hfuel
    have hpnd : processed.Nodup := (List.nodup_append.mp h1).1
    have hsub : processed ⊆ items.map Item.name := fun n hn =>
      h2 n (List.mem_append.mpr (Or.inl hn))
    have hsup := List.subperm_of_subset hpnd hsub
    have hlen : (items.map Item.name).length ≤ processed.length := by
      rw [List.length_map]
      omega
    have hperm : processed.Perm (items.map Item.name) :=
      hsup.perm_of_length_le hlen
    exact ⟨processed, topoLoop_zero _ _ _ _ _, hpnd,
      fun n => hperm.mem_iff, h4⟩
  | succ fuel ih =>
    intro processed queue h1 h2 h3 h4 hfuel
    cases queue with
    | nil =>
      have hpnd : processed.Nodup := by simpa using h1
      have hcomplete : ∀ n ∈ items.map Item.name, n ∈ processed := by
        apply pending_empty items hAcy processed
        intro n hn hnp
        have hnotmem : n ∉ processed ++ ([] : List String) := by
          simpa using hnp
        cases hp : parentOf items n with
        | none => exact absurd ((h3 n hn).mp (Or.inl hp)) hnotmem
        | some d =>
          refine ⟨d, rfl, parentOf_resolves items hRes n d hp, ?_⟩
          intro hdP
          exact hnotmem ((h3 n hn).mp (Or.inr ⟨d, hp, hdP⟩))
      refine ⟨processed, topoLoop_nil _ _ _ _ _, hpnd, ?_, h4⟩
      intro n
      constructor
      · intro hn
        exact h2 n (by simpa using hn)
      · intro hn
        exact hcomplete n hn
    | cons name rest =>
      have hname_ns : name ∈ items.map Item.name := h2 name (by simp)
      have hname_np : name ∉ processed := by
        have hdis := (List.nodup_append.mp h1).2.2
        intro hc
        exact hdis hc (by simp)
      have hitems_ne : items ≠ [] := by
        intro e
        rw [e] at hname_ns
        simp at hname_ns
      have hlen_pos : 0 < items.length := List.length_pos.mpr hitems_ne
      have hself : parentOf items name ≠ some name := by
        have := hAcy name hname_ns 1 (by omega) (by omega)
        rw [iterParent_one] at this
        exact this
      have hchild_fact : ∀ c ∈ childNamesOf items name,
          c ∈ items.map Item.name ∧ parentOf items c = some name :=
        fun c hc => (mem_childNamesOf items hnd name c).mp hc
      have hchild_nodup : (childNamesOf items name).Nodup := by
        unfold childNamesOf
        exact List.Nodup.sublist
          (List.Sublist.map Item.name (List.filter_sublist items)) hnd
      have hchild_np : ∀ c ∈ childNamesOf items name, c ∉ processed := by
        intro c hc hcp
        rcases hchild_fact c hc with ⟨_, hp⟩
        rcases h4 c hcp name hp with ⟨hnp2, _⟩
        exact hname_np hnp2
      have hchild_ne : ∀ c ∈ childNamesOf items name, c ≠ name := by
        intro c hc e
        subst e
        exact hself (hchild_fact c hc).2
      have hchild_nr : ∀ c ∈ childNamesOf items name, c ∉ rest := by
        intro c hc hcr
        rcases hchild_fact c hc with ⟨hcns, hp⟩
        have hmem : c ∈ processed ++ name :: rest := by simp [hcr]
        rcases (h3 c hcns).mpr hmem with hnone | ⟨d, hd, hdP⟩
        · rw [hp] at hnone
          exact Option.noConfusion hnone
        · rw [hp] at hd
          injection hd with hd'
          subst hd'
          exact hname_np hdP
      have hA : processed ++ name :: rest = (processed ++ [name]) ++ rest := by
        simp
      have h1' : ((processed ++ [name]) ++ (rest ++ childNamesOf items name)).Nodup := by
        rw [← List.append_assoc]
        rw [List.nodup_append]
        refine ⟨by rw [← hA]; exact h1, hchild_nodup, ?_⟩
        intro a haA hac
        rcases List.mem_append.mp haA with haA' | har
        · rcases List.mem_append.mp haA' with hap | hani
          · exact hchild_np a hac hap
          · exact hchild_ne a hac (by simpa using hani)
        · exact hchild_nr a hac har
      have h2' : ∀ n ∈ (processed ++ [name]) ++ (rest ++ childNamesOf items name),
          n ∈ items.map Item.name := by
        intro n hn
        rcases List.mem_append.mp hn with h | h
        · rcases List.mem_append.mp h with h' | h'
          · exact h2 n (List.mem_append.mpr (Or.inl h'))
          · have : n = name := by simpa using h'
            subst this
            exact hname_ns
        · rcases List.mem_append.mp h with h' | h'
          · exact h2 n (by simp [h'])
          · exact (hchild_fact n h').1
      have hmem_old_new : ∀ n : String, n ∈ processed ++ name :: rest →
          n ∈ (processed ++ [name]) ++ (rest ++ childNamesOf items name) := by
        intro n hn
        rcases List.mem_append.mp hn with h | h
        · exact List.mem_append.mpr (Or.inl (List.mem_append.mpr (Or.inl h)))
        · rcases List.mem_cons.mp h with rfl | h'
          · exact List.mem_append.mpr (Or.inl (by simp))
          · exact List.mem_append.mpr (Or.inr (List.mem_append.mpr (Or.inl h')))
      have h3' : ∀ n ∈ items.map Item.name,
          ((parentOf items n = none ∨
            ∃ d, parentOf items n = some d ∧ d ∈ processed ++ [name]) ↔
           n ∈ (processed ++ [name]) ++ (rest ++ childNamesOf items name)) := by
        intro n hn
        constructor
        · rintro (hnone | ⟨d, hd, hdP⟩)
          · exact hmem_old_new n ((h3 n hn).mp (Or.inl hnone))
          · rcases List.mem_append.mp hdP with hdp | hdn
            · exact hmem_old_new n ((h3 n hn).mp (Or.inr ⟨d, hd, hdp⟩))
            · have he : d = name := by simpa using hdn
              rw [he] at hd
              have hch : n ∈ childNamesOf items name :=
                (mem_childNamesOf items hnd name n).mpr ⟨hn, hd⟩
              exact List.mem_append.mpr (Or.inr (List.mem_append.mpr (Or.inr hch)))
        · intro hmem
          rcases List.mem_append.mp hmem with h | h
          · rcases List.mem_append.mp h with h' | h'
            · rcases (h3 n hn).mpr (by simp [h']) with hnone | ⟨d, hd, hdp⟩
              · exact Or.inl hnone
              · exact Or.inr ⟨d, hd, by simp [hdp]⟩
            · have : n = name := by simpa using h'
              subst this
              rcases (h3 n hn).mpr (by simp) with hnone | ⟨d, hd, hdp⟩
              · exact Or.inl hnone
              · exact Or.inr ⟨d, hd, by simp [hdp]⟩
          · rcases List.mem_append.mp h with h' | h'
            · rcases (h3 n hn).mpr (by simp [h']) with hnone | ⟨d, hd, hdp⟩
              · exact Or.inl hnone
              · exact Or.inr ⟨d, hd, by simp [hdp]⟩
            · exact Or.inr ⟨name, (hchild_fact n h').2, by simp⟩
      have h4' : ∀ n ∈ processed ++ [name], ∀ d, parentOf items n = some d →
          d ∈ processed ++ [name] ∧
          List.indexOf d (processed ++ [name])
            < List.indexOf n (processed ++ [name]) := by
        intro n hn d hd
        rcases List.mem_append.mp hn with hnp | hnn
        · rcases h4 n hnp d hd with ⟨hdp, hidx⟩
          refine ⟨List.mem_append.mpr (Or.inl hdp), ?_⟩
          rw [List.indexOf_append_of_mem hdp, List.indexOf_append_of_mem hnp]
          exact hidx
        · have : n = name := by simpa using hnn
          subst this
          rcases (h3 n hname_ns).mpr (by simp) with hnone | ⟨d', hd', hdP'⟩
          · rw [hd] at hnone
            exact Option.noConfusion hnone
          · rw [hd] at hd'
            injection hd' with he
            subst he
            refine ⟨by simp [hdP'], ?_⟩
            rw [List.indexOf_append_of_mem hdP',
              List.indexOf_append_of_not_mem hname_np,
              List.indexOf_cons_self]
            have h1idx : List.indexOf d processed < processed.length :=
              List.indexOf_lt_length.mpr hdP'
            omega
      have hfuel' : items.length - (processed ++ [name]).length ≤ fuel := by
        rw [List.length_append]
        simp only [List.length_cons, List.length_nil]
        omega
      rcases ih (processed ++ [name]) (rest ++ childNamesOf items name)
        h1' h2' h3' h4' hfuel' with ⟨final, heq, hfn, hfm, hfo⟩
      refine ⟨final, ?_, hfn, hfm, hfo⟩
      rw [topoLoop_cons, topoStep_eq items hnd name processed rest hname_np]
      have hsorted : processed.map (fun n =>
            jsMapGet (items.map (fun it => (it.name, it))) n)
          ++ [jsMapGet (items.map (fun it => (it.name, it))) name]
          = (processed ++ [name]).map (fun n =>
              jsMapGet (items.map (fun it => (it.name, it))) n) := by
        rw [List.map_append]
        rfl
      rw [hsorted]
      exact heq

theorem topologicalSort_def (graph : List (String × List String))
    (items : List Item) :
    topologicalSort graph items =
      (if (topoLoop graph
            (items.foldl (fun m item => jsMapSet m item.name item) [])
            (2 * graph.length + 1)
            (((computeInDegree graph).filter (fun p => p.2 == 0)).map
              (fun p => p.1))
            (computeInDegree graph) []).length = items.length
       then some (topoLoop graph
            (items.foldl (fun m item => jsMapSet m item.name item) [])
            (2 * graph.length + 1)
            (((computeInDegree graph).filter (fun p => p.2 == 0)).map
              (fun p => p.1))
            (computeInDegree graph) [])
       else none) := rfl

theorem degDuring_nil_zero_iff (items : List Item) (n : String) :
    degDuring items [] n = 0 ↔ parentOf items n = none := by
  cases hp : parentOf items n with
  | none => simp [degDuring_of_root items [] n hp]
  | some d =>
    rw [degDuring_of_parent items [] n d hp]
    simp

/-- C1: for every non-empty item list with unique names, fully-resolvable
`depends_on` references and an acyclic dependency relation,
`topologicalSort` on the graph built by `buildDependencyGraph` succeeds and
returns a permutation of the input items, of the same length, in which
every item appears strictly after the item named by its `depends_on`. -/
theorem C1_topologicalSort_correct (items : List Item)
    (hne : items ≠ [])
    (hnd : (items.map Item.name).Nodup)
    (hRes : ∀ it ∈ items, ∀ d, it.depends_on = some d →
      d ∈ items.map Item.name)
    (hAcy : AcyclicDeps items) :
    ∃ out : List Item,
      topologicalSort (buildDependencyGraph items) items
        = some (out.map some) ∧
      out.Perm items ∧ out.length = items.length ∧
      ∀ (j : Nat) (hj : j < out.length) (d : String),
        (out.get ⟨j, hj⟩).depends_on = some d →
        ∃ (i : Nat) (hi : i < out.length), i < j ∧
          (out.get ⟨i, hi⟩).name = d := by
  have hgraph := buildDependencyGraph_eq items hnd
  have hnti : items.foldl (fun m item => jsMapSet m item.name item) []
      = items.map (fun it => (it.name, it)) := by
    have := foldl_jsMapSet_fresh (α := Item) Item.name (fun it => it) items []
      (by simp) hnd
    simpa using this
  have hideg : computeInDegree (buildDependencyGraph items)
      = (items.map Item.name).map (fun n => (n, degDuring items [] n)) := by
    rw [computeInDegree_eq items hnd]
    apply List.map_congr_left
    intro n _
    rw [degInit_eq_degDuring_nil items hRes n]
  have hqueue : ((((items.map Item.name).map
        (fun n => (n, degDuring items [] n))).filter
          (fun p => p.2 == 0)).map (fun p => p.1))
      = (items.map Item.name).filter
          (fun n => degDuring items [] n == 0) := by
    rw [List.filter_map, List.map_map]
    have hcomp : ((fun p : String × Int => p.1) ∘
        (fun n => (n, degDuring items [] n))) = id := rfl
    rw [hcomp, List.map_id]
    rfl
  set Q := (items.map Item.name).filter
    (fun n => degDuring items [] n == 0) with hQ
  have hQiff : ∀ n, n ∈ Q ↔
      n ∈ items.map Item.name ∧ parentOf items n = none := by
    intro n
    rw [hQ, List.mem_filter]
    constructor
    · rintro ⟨hns, hz⟩
      exact ⟨hns, (degDuring_nil_zero_iff items n).mp (by simpa using hz)⟩
    · rintro ⟨hns, hp⟩
      exact ⟨hns, by simp [(degDuring_nil_zero_iff items n).mpr hp]⟩
  have h1 : (([] : List String) ++ Q).Nodup := by
    simp only [List.nil_append]
    exact List.Nodup.filter _ hnd
  have h2 : ∀ n ∈ ([] : List String) ++ Q, n ∈ items.map Item.name := by
    intro n hn
    exact ((hQiff n).mp (by simpa using hn)).1
  have h3 : ∀ n ∈ items.map Item.name,
      ((parentOf items n = none ∨
        ∃ d, parentOf items n = some d ∧ d ∈ ([] : List String)) ↔
       n ∈ ([] : List String) ++ Q) := by
    intro n hn
    constructor
    · rintro (hnone | ⟨d, _, hd⟩)
      · simpa using (hQiff n).mpr ⟨hn, hnone⟩
      · exact absurd hd (List.not_mem_nil d)
    · intro hmem
      exact Or.inl ((hQiff n).mp (by simpa using hmem)).2
  have h4 : ∀ n ∈ ([] : List String), ∀ d, parentOf items n = some d →
      d ∈ ([] : List String) ∧
      List.indexOf d ([] : List String) < List.indexOf n ([] : List String) :=
    fun n hn => absurd hn (List.not_mem_nil n)
  have hfuel : items.length - ([] : List String).length
      ≤ 2 * (items.map (fun it => (it.name, depsOf it))).length + 1 := by
    rw [List.length_map]
    simp only [List.length_nil]
    omega
  rcases topoLoop_spec items hnd hRes hAcy
    (2 * (items.map (fun it => (it.name, depsOf it))).length + 1) [] Q
    h1 h2 h3 h4 hfuel with ⟨final, heq, hfn, hfm, hfo⟩
  have heq' : topoLoop (items.map (fun it => (it.name, depsOf it)))
      (items.map (fun it => (it.name, it)))
      (2 * (items.map (fun it => (it.name, depsOf it))).length + 1) Q
      ((items.map Item.name).map (fun n => (n, degDuring items [] n))) []
      = final.map (fun n =>
          jsMapGet (items.map (fun it => (it.name, it))) n) := by
    simpa using heq
  have hperm_ns : final.Perm (items.map Item.name) :=
    (List.perm_ext_iff_of_nodup hfn hnd).mpr hfm
  have hlenf : final.length = items.length := by
    rw [hperm_ns.length_eq, List.length_map]
  have hlookup : ∀ n ∈ items.map Item.name,
      jsMapGet (items.map (fun it => (it.name, it))) n
        = some (itemOfName items n) := by
    intro n hn
    rw [jsMapGet_nameToItem]
    exact (itemOfName_spec items n hn).1
  have hsorted_eq : final.map (fun n =>
        jsMapGet (items.map (fun it => (it.name, it))) n)
      = (final.map (itemOfName items)).map some := by
    rw [List.map_map]
    apply List.map_congr_left
    intro n hn
    rw [hlookup n ((hfm n).mp hn)]
    rfl
  have hmapid : (items.map Item.name).map (itemOfName items) = items := by
    rw [List.map_map]
    have hpt : ∀ it ∈ items, (itemOfName items ∘ Item.name) it = id it :=
      fun it hit => itemOfName_of_mem items hnd it hit
    rw [List.map_congr_left hpt, List.map_id]
  have hperm_items : (final.map (itemOfName items)).Perm items := by
    have h := hperm_ns.map (itemOfName items)
    rw [hmapid] at h
    exact h
  have hlen_out : (final.map (itemOfName items)).length = items.length :=
    hperm_items.length_eq
  refine ⟨final.map (itemOfName items), ?_, hperm_items, hlen_out, ?_⟩
  · rw [topologicalSort_def, hnti, hideg, hqueue, hgraph, heq']
    rw [if_pos (by rw [List.length_map]; exact hlenf)]
    rw [hsorted_eq]
  · intro j hj d hdep
    have hj' : j < final.length := by
      have := List.length_map final (itemOfName items)
      omega
    rw [List.get_eq_getElem, List.getElem_map] at hdep
    have hnf : final[j] ∈ final := List.getElem_mem hj'
    have hnns : final[j] ∈ items.map Item.name := (hfm _).mp hnf
    have hpar : parentOf items final[j] = some d := by
      rw [parentOf_eq_itemOfName items _ hnns]
      exact hdep
    rcases hfo _ hnf d hpar with ⟨hdf, hidx⟩
    have hdns : d ∈ items.map Item.name := (hfm d).mp hdf
    have hij : List.indexOf final[j] final = j := List.indexOf_getElem hfn j hj'
    have hilt : List.indexOf d final < final.length :=
      List.indexOf_lt_length.mpr hdf
    have hiout : List.indexOf d final
        < (final.map (itemOfName items)).length := by
      rw [List.length_map]
      exact hilt
    refine ⟨List.indexOf d final, hiout, ?_, ?_⟩
    · rw [hij] at hidx
      exact hidx
    · rw [List.get_eq_getElem, List.getElem_map]
      have hgetd : final[List.indexOf d final] = d :=
        List.getElem_indexOf hilt
      rw [hgetd]
      exact (itemOfName_spec items d hdns).2.1

theorem C1_topologicalSort_correct_witness :
    (([{ name := "lib", depends_on := none },
       { name := "app", depends_on := some "lib" }] : List Item) ≠ []) ∧
    (([{ name := "lib", depends_on := none },
       { name := "app", depends_on := some "lib" }] : List Item).map
      Item.name).Nodup ∧
    (∀ it ∈ ([{ name := "lib", depends_on := none },
              { name := "app", depends_on := some "lib" }] : List Item),
      ∀ d, it.depends_on = some d →
        d ∈ ([{ name := "lib", depends_on := none },
              { name := "app", depends_on := some "lib" }] : List Item).map
          Item.name) ∧
    AcyclicDeps [{ name := "lib", depends_on := none },
                 { name := "app", depends_on := some "lib" }] ∧
    ∃ out : List Item,
      topologicalSort (buildDependencyGraph
          [{ name := "lib", depends_on := none },
           { name := "app", depends_on := some "lib" }])
          [{ name := "lib", depends_on := none },
           { name := "app", depends_on := some "lib" }]
        = some (out.map some) ∧
      out.Perm [{ name := "lib", depends_on := none },
                { name := "app", depends_on := some "lib" }] ∧
      out.length = ([{ name := "lib", depends_on := none },
                     { name := "app", depends_on := some "lib" }] : List Item).length ∧
      ∀ (j : Nat) (hj : j < out.length) (d : String),
        (out.get ⟨j, hj⟩).depends_on = some d →
        ∃ (i : Nat) (hi : i < out.length), i < j ∧
          (out.get ⟨i, hi⟩).name = d :=
  ⟨by decide, by decide, by decide, by decide,
   C1_topologicalSort_correct
     [{ name := "lib", depends_on := none },
      { name := "app", depends_on := some "lib" }]
     (by decide) (by decide) (by decide) (by decide)⟩

/-! ## Tarball lookup -/

theorem strEndsWith_append (a b : String) : strEndsWith (a ++ b) b = true := by
  unfold strEndsWith
  rw [Bool.and_eq_true]
  constructor
  · rw [decide_eq_true_eq, String.data_append, List.length_append]
    omega
  · rw [String.data_append, List.length_append]
    have harith : a.data.length + b.data.length - b.data.length
        = a.data.length := by omega
    rw [harith, List.drop_left]
    exact beq_self_eq_true b.data

theorem pickNewest_mem_aux :
    ∀ (files : List (String × Int)) (acc : Option (String × Int))
      (f : String × Int),
      files.foldl (fun acc f =>
        match acc with
        | none => some f
        | some b => if f.2 > b.2 then some f else some b) acc = some f →
      acc = some f ∨ f ∈ files := by
  intro files
  induction files with
  | nil =>
    intro acc f h
    exact Or.inl h
  | cons x t ih =>
    intro acc f h
    rw [List.foldl_cons] at h
    rcases ih _ f h with hstep | hmem
    · cases acc with
      | none =>
        have : x = f := by simpa using hstep
        exact Or.inr (this ▸ List.mem_cons_self x t)
      | some b =>
        have hstep' : (if x.2 > b.2 then some x else some b) = some f := hstep
        by_cases hgt : x.2 > b.2
        · rw [if_pos hgt] at hstep'
          have : x = f := by simpa using hstep'
          exact Or.inr (this ▸ List.mem_cons_self x t)
        · rw [if_neg hgt] at hstep'
          exact Or.inl hstep'
    · exact Or.inr (List.mem_cons_of_mem x hmem)

theorem pickNewest_isSome_aux :
    ∀ (t : List (String × Int)) (b : String × Int),
      ∃ f, t.foldl (fun acc f =>
        match acc with
        | none => some f
        | some b => if f.2 > b.2 then some f else some b) (some b) = some f := by
  intro t
  induction t with
  | nil => exact fun b => ⟨b, rfl⟩
  | cons x t ih =>
    intro b
    rw [List.foldl_cons]
    by_cases hgt : x.2 > b.2
    · have : (match some b with
          | none => some x
          | some c => if x.2 > c.2 then some x else some c) = some x := by
        simp [hgt]
      rw [this]
      exact ih x
    · have : (match some b with
          | none => some x
          | some c => if x.2 > c.2 then some x else some c) = some b := by
        simp [hgt]
      rw [this]
      exact ih b

theorem getNewestFile_mem (dir : String) (files : List (String × Int))
    (hne : files ≠ []) :
    ∃ f ∈ files, getNewestFile dir files = dir ++ "/" ++ f.1 := by
  cases files with
  | nil => exact absurd rfl hne
  | cons x t =>
    rcases pickNewest_isSome_aux t x with ⟨f, hf⟩
    have hpick : pickNewest (x :: t) = some f := by
      unfold pickNewest
      rw [List.foldl_cons]
      exact hf
    have hmem : f ∈ x :: t := by
      rcases pickNewest_mem_aux (x :: t) none f (by
        unfold pickNewest at hpick
        exact hpick) with h | h
      · exact Option.noConfusion h
      · exact h
    refine ⟨f, hmem, ?_⟩
    unfold getNewestFile
    rw [hpick]

/-- C6, counterexample: a directory that exists and contains a `.tgz` file
but no `package.json`: the claim says `findTgzFile` must succeed, but
`getActualPackageName` is consulted first and throws. -/
theorem C6_counterexample :
    tgzNoManifestDir.present = true ∧
    (tgzNoManifestDir.entries.filter
      (fun e => strEndsWith e.1 ".tgz")).length = 1 ∧
    findTgzFile tgzNoManifestDir "d" "foo" "1.0.0"
      = Except.error "package.json not found in d" := by
  refine ⟨rfl, by decide, by decide⟩

/-- C6, amended: *given that the directory's manifest resolves to a
declared package name* (`getActualPackageName` succeeds), `findTgzFile`
fails exactly when the directory does not exist or contains zero `.tgz`
files; whenever the directory exists and holds at least one `.tgz` file it
returns the directory-joined path of some `.tgz` entry of that directory,
following the ordered resolution fallbacks. -/
theorem C6_findTgz_fails_iff (fs : DirFS) (dir packageName version : String)
    (hman : ∃ nm, getActualPackageName fs dir = Except.ok nm) :
    (fs.present = false →
      findTgzFile fs dir packageName version
        = Except.error ("Directory not found: " ++ dir)) ∧
    (fs.present = true →
      fs.entries.filter (fun e => strEndsWith e.1 ".tgz") = [] →
      findTgzFile fs dir packageName version
        = Except.error ("No .tgz files found in " ++ dir)) ∧
    (fs.present = true →
      fs.entries.filter (fun e => strEndsWith e.1 ".tgz") ≠ [] →
      ∃ f ∈ fs.entries.filter (fun e => strEndsWith e.1 ".tgz"),
        findTgzFile fs dir packageName version
          = Except.ok (dir ++ "/" ++ f.1)) := by
  rcases hman with ⟨nm, hnm⟩
  refine ⟨?_, ?_, ?_⟩
  · intro hpres
    simp [findTgzFile, hpres]
  · intro hpres hnil
    have hany : (fs.entries.any fun e =>
        e.1 == filenamePrefixOf nm ++ "-" ++ version ++ ".tgz") = false := by
      rw [List.any_eq_false]
      intro e he
      simp only [beq_iff_eq]
      intro heq
      have htgz : strEndsWith e.1 ".tgz" = true := by
        rw [heq]
        exact strEndsWith_append (filenamePrefixOf nm ++ "-" ++ version) ".tgz"
      have : e ∈ fs.entries.filter (fun e => strEndsWith e.1 ".tgz") :=
        List.mem_filter.mpr ⟨he, htgz⟩
      rw [hnil] at this
      exact List.not_mem_nil e this
    simp only [findTgzFile, hnm, hpres, hany, Bool.not_true, hnil]
    simp
  · intro hpres hne
    simp only [findTgzFile, hnm, hpres, Bool.not_true]
    by_cases hany : (fs.entries.any fun e =>
        e.1 == filenamePrefixOf nm ++ "-" ++ version ++ ".tgz") = true
    · rcases List.any_eq_true.mp hany with ⟨e, he, hbeq⟩
      have heq : e.1 = filenamePrefixOf nm ++ "-" ++ version ++ ".tgz" := by
        simpa using hbeq
      have htgz : strEndsWith e.1 ".tgz" = true := by
        rw [heq]
        exact strEndsWith_append (filenamePrefixOf nm ++ "-" ++ version) ".tgz"
      refine ⟨e, List.mem_filter.mpr ⟨he, htgz⟩, ?_⟩
      rw [heq]
      simp [hany]
    · have hany' : (fs.entries.any fun e =>
          e.1 == filenamePrefixOf nm ++ "-" ++ version ++ ".tgz") = false := by
        cases h : fs.entries.any fun e =>
            e.1 == filenamePrefixOf nm ++ "-" ++ version ++ ".tgz"
        · rfl
        · exact absurd h hany
      have hlen : ((fs.entries.filter
          (fun e => strEndsWith e.1 ".tgz")).length == 0) = false := by
        simp only [beq_eq_false_iff_ne, ne_eq]
        intro h0
        exact hne (List.length_eq_zero.mp h0)
      simp only [hany', hlen, Bool.false_eq_true, if_false]
      set allTgz := fs.entries.filter (fun e => strEndsWith e.1 ".tgz")
        with hallTgz
      by_cases hvm : (allTgz.filter
          (fun e => strIncludes e.1 version)).length > 0
      · rw [if_pos hvm]
        by_cases hpm : ((allTgz.filter (fun e => strIncludes e.1 version)).filter
            (fun e => strStartsWith e.1 (filenamePrefixOf nm ++ "-"))).length > 0
        · rw [if_pos hpm]
          rcases getNewestFile_mem dir _
            (List.length_pos.mp hpm) with ⟨f, hf, hpath⟩
          exact ⟨f, (List.mem_filter.mp ((List.mem_filter.mp hf).1)).1,
            by rw [hpath]⟩
        · rw [if_neg hpm]
          rcases getNewestFile_mem dir _
            (List.length_pos.mp hvm) with ⟨f, hf, hpath⟩
          exact ⟨f, (List.mem_filter.mp hf).1, by rw [hpath]⟩
      · rw [if_neg hvm]
        by_cases hpm : (allTgz.filter
            (fun e => strStartsWith e.1 (filenamePrefixOf nm ++ "-"))).length > 0
        · rw [if_pos hpm]
          rcases getNewestFile_mem dir _
            (List.length_pos.mp hpm) with ⟨f, hf, hpath⟩
          exact ⟨f, (List.mem_filter.mp hf).1, by rw [hpath]⟩
        · rw [if_neg hpm]
          by_cases hcm : (allTgz.filter
              (fun e => strStartsWith e.1 (packageName ++ "-"))).length > 0
          · rw [if_pos hcm]
            rcases getNewestFile_mem dir _
              (List.length_pos.mp hcm) with ⟨f, hf, hpath⟩
            exact ⟨f, (List.mem_filter.mp hf).1, by rw [hpath]⟩
          · rw [if_neg hcm]
            rcases getNewestFile_mem dir allTgz hne with ⟨f, hf, hpath⟩
            exact ⟨f, hf, by rw [hpath]⟩

theorem C6_findTgz_fails_iff_witness :
    (∃ nm, getActualPackageName tgzLibDir "d" = Except.ok nm) ∧
    ((tgzLibDir.present = false →
      findTgzFile tgzLibDir "d" "lib" "1.0.0"
        = Except.error ("Directory not found: " ++ "d")) ∧
    (tgzLibDir.present = true →
      tgzLibDir.entries.filter (fun e => strEndsWith e.1 ".tgz") = [] →
      findTgzFile tgzLibDir "d" "lib" "1.0.0"
        = Except.error ("No .tgz files found in " ++ "d")) ∧
    (tgzLibDir.present = true →
      tgzLibDir.entries.filter (fun e => strEndsWith e.1 ".tgz") ≠ [] →
      ∃ f ∈ tgzLibDir.entries.filter (fun e => strEndsWith e.1 ".tgz"),
        findTgzFile tgzLibDir "d" "lib" "1.0.0"
          = Except.ok ("d" ++ "/" ++ f.1))) :=
  ⟨⟨"qk-lib", by decide⟩,
   C6_findTgz_fails_iff tgzLibDir "d" "lib" "1.0.0" ⟨"qk-lib", by decide⟩⟩

/-! ## Timestamp and alpha-version lemmas -/

theorem digitChar_isDigit : ∀ m : Nat, m < 10 → (Nat.digitChar m).isDigit = true := by
  decide

theorem natToDecChars_digits (n : Nat) :
    ∀ c ∈ natToDecChars n, c.isDigit = true := by
  induction n using Nat.strong_induction_on with
  | _ n ih =>
    rw [natToDecChars]
    split
    next h =>
      intro c hc
      rw [List.mem_singleton] at hc
      subst hc
      exact digitChar_isDigit n h
    next h =>
      intro c hc
      rw [List.mem_append] at hc
      rcases hc with hc | hc
      · exact ih (n / 10) (Nat.div_lt_self (by omega) (by omega)) c hc
      · rw [List.mem_singleton] at hc
        subst hc
        exact digitChar_isDigit (n % 10) (Nat.mod_lt _ (by omega))

theorem natToDecChars_length_lt10 (n : Nat) (h : n < 10) :
    (natToDecChars n).length = 1 := by
  rw [natToDecChars, dif_pos h]
  rfl

theorem natToDecChars_length_pow (k : Nat) :
    ∀ n, 10 ^ k ≤ n → n < 10 ^ (k + 1) → (natToDecChars n).length = k + 1 := by
  induction k with
  | zero =>
    intro n h1 h2
    exact natToDecChars_length_lt10 n (by simpa using h2)
  | succ k ih =>
    intro n h1 h2
    have h10 : ¬ n < 10 := by
      have hle : (10 : Nat) ≤ 10 ^ (k + 1) := by
        calc (10 : Nat) = 10 ^ 1 := (pow_one 10).symm
        _ ≤ 10 ^ (k + 1) := Nat.pow_le_pow_right (by omega) (by omega)
      omega
    rw [natToDecChars, dif_neg h10, List.length_append]
    have hlo : 10 ^ k ≤ n / 10 := by
      rw [Nat.le_div_iff_mul_le (by omega)]
      calc 10 ^ k * 10 = 10 ^ (k + 1) := by ring
      _ ≤ n := h1
    have hhi : n / 10 < 10 ^ (k + 1) := by
      rw [Nat.div_lt_iff_lt_mul (by omega)]
      calc n < 10 ^ (k + 1 + 1) := h2
      _ = 10 ^ (k + 1) * 10 := by ring
    rw [ih (n / 10) hlo hhi]
    rfl

theorem padTwo_data_length (n : Nat) (h : n < 100) :
    (padTwo n).data.length = 2 := by
  unfold padTwo
  by_cases h10 : n < 10
  · rw [if_pos h10, String.data_append, List.length_append]
    show 1 + (natToDecChars n).length = 2
    rw [natToDecChars_length_lt10 n h10]
  · rw [if_neg h10]
    show (natToDecChars n).length = 2
    have := natToDecChars_length_pow 1 n (by omega) (by norm_num; omega)
    simpa using this

theorem padTwo_digits (n : Nat) :
    ∀ c ∈ (padTwo n).data, c.isDigit = true := by
  unfold padTwo
  by_cases h10 : n < 10
  · rw [if_pos h10, String.data_append]
    intro c hc
    rw [List.mem_append] at hc
    rcases hc with hc | hc
    · rw [show ("0" : String).data = ['0'] from rfl, List.mem_singleton] at hc
      subst hc
      decide
    · exact natToDecChars_digits n c hc
  · rw [if_neg h10]
    exact natToDecChars_digits n

theorem generateTimestamp_length (d : DateParts)
    (hy1 : 1000 ≤ d.year) (hy2 : d.year < 10000) (hmo : d.month < 100)
    (hda : d.day < 100) (hho : d.hour < 100) (hmi : d.minute < 100)
    (hse : d.second < 100) :
    (generateTimestamp d).length = 14 := by
  unfold generateTimestamp
  rw [String.length_append, String.length_append, String.length_append,
      String.length_append, String.length_append]
  have hy : (natToDec d.year).length = 4 := by
    show (natToDecChars d.year).length = 4
    have h4 := natToDecChars_length_pow 3 d.year (by norm_num; omega)
      (by norm_num; omega)
    simpa using h4
  have hm2 : (padTwo d.month).length = 2 := padTwo_data_length d.month hmo
  have hd2 : (padTwo d.day).length = 2 := padTwo_data_length d.day hda
  have hh2 : (padTwo d.hour).length = 2 := padTwo_data_length d.hour hho
  have hmi2 : (padTwo d.minute).length = 2 := padTwo_data_length d.minute hmi
  have hs2 : (padTwo d.second).length = 2 := padTwo_data_length d.second hse
  rw [hy, hm2, hd2, hh2, hmi2, hs2]

theorem generateTimestamp_digits (d : DateParts) :
    ∀ c ∈ (generateTimestamp d).data, c.isDigit = true := by
  unfold generateTimestamp
  intro c hc
  rw [String.data_append, String.data_append, String.data_append,
      String.data_append, String.data_append] at hc
  simp only [List.mem_append] at hc
  rcases hc with ((((hc | hc) | hc) | hc) | hc) | hc
  · exact natToDecChars_digits d.year c hc
  · exact padTwo_digits d.month c hc
  · exact padTwo_digits d.day c hc
  · exact padTwo_digits d.hour c hc
  · exact padTwo_digits d.minute c hc
  · exact padTwo_digits d.second c hc

theorem takeWhile_append_of_all {α : Type} (p : α → Bool) (l1 l2 : List α)
    (h : ∀ a ∈ l1, p a = true) :
    (l1 ++ l2).takeWhile p = l1 ++ l2.takeWhile p := by
  induction l1 with
  | nil => rfl
  | cons a t ih =>
    rw [List.cons_append, List.takeWhile_cons, h a (List.mem_cons_self a t),
        if_pos rfl, ih (fun b hb => h b (List.mem_cons_of_mem a hb)),
        List.cons_append]

theorem take_length_takeWhile {α : Type} (p : α → Bool) (l : List α) :
    l.take (l.takeWhile p).length = l.takeWhile p := by
  induction l with
  | nil => rfl
  | cons a t ih =>
    rw [List.takeWhile_cons]
    by_cases h : p a = true
    · rw [if_pos h, List.length_cons, List.take_succ_cons, ih]
    · rw [if_neg h]
      rfl

theorem length_takeWhile_le {α : Type} (p : α → Bool) (l : List α) :
    (l.takeWhile p).length ≤ l.length := by
  induction l with
  | nil => exact Nat.le_refl 0
  | cons a t ih =>
    rw [List.takeWhile_cons]
    by_cases h : p a = true
    · rw [if_pos h, List.length_cons, List.length_cons]
      omega
    · rw [if_neg h]
      simp

theorem generateAlphaVersion_replaces (ts pre ds : String)
    (hne : ds ≠ "") (hdig : ∀ c ∈ ds.data, c.isDigit = true) :
    generateAlphaVersion ts (pre ++ "-alpha." ++ ds) = pre ++ "-alpha." ++ ts := by
  have hcs : (pre ++ "-alpha." ++ ds).data
      = (pre.data ++ "-alpha.".data) ++ ds.data := by
    rw [String.data_append, String.data_append]
  have hdsne : ds.data ≠ [] := by
    intro hnil
    apply hne
    cases ds with
    | mk l =>
      cases hnil
      rfl
  have hdpos : 0 < ds.data.length := List.length_pos.2 hdsne
  have hrevalpha : "-alpha.".data.reverse = '.' :: "ahpla-".data := by decide
  have htail : (("-alpha.".data.reverse ++ pre.data.reverse).takeWhile
      Char.isDigit) = [] := by
    rw [hrevalpha, List.cons_append, List.takeWhile_cons, if_neg (by decide)]
  have hrun : ((pre ++ "-alpha." ++ ds).data.reverse.takeWhile
      Char.isDigit).length = ds.data.length := by
    rw [hcs, List.reverse_append, List.reverse_append,
        takeWhile_append_of_all _ _ _ (fun c hc => hdig c (List.mem_reverse.1 hc)),
        htail, List.append_nil, List.length_reverse]
  simp only [generateAlphaVersion]
  rw [hrun, hcs, List.length_append, Nat.add_sub_cancel, List.take_left]
  have hmk : String.mk (pre.data ++ "-alpha.".data) = pre ++ "-alpha." := rfl
  rw [hmk, if_pos ⟨hdpos, strEndsWith_append pre "-alpha."⟩,
      List.length_append, Nat.add_sub_cancel, List.take_left]

theorem generateAlphaVersion_appends (ts base : String)
    (h : ∀ pre ds : String, ¬(base = pre ++ "-alpha." ++ ds ∧ ds ≠ "" ∧
          ∀ c ∈ ds.data, c.isDigit = true)) :
    generateAlphaVersion ts base = base ++ "-alpha." ++ ts := by
  simp only [generateAlphaVersion]
  by_cases hcond : 0 < (base.data.reverse.takeWhile Char.isDigit).length ∧
      strEndsWith (String.mk (base.data.take (base.data.length
        - (base.data.reverse.takeWhile Char.isDigit).length))) "-alpha." = true
  · exfalso
    obtain ⟨hr, hsuf⟩ := hcond
    have hrle : (base.data.reverse.takeWhile Char.isDigit).length
        ≤ base.data.length := by
      have hle := length_takeWhile_le Char.isDigit base.data.reverse
      rw [List.length_reverse] at hle
      exact hle
    have hdslrev : (base.data.drop (base.data.length
        - (base.data.reverse.takeWhile Char.isDigit).length)).reverse
        = base.data.reverse.takeWhile Char.isDigit := by
      rw [List.reverse_drop]
      have harith : base.data.length - (base.data.length
          - (base.data.reverse.takeWhile Char.isDigit).length)
          = (base.data.reverse.takeWhile Char.isDigit).length := by omega
      rw [harith]
      have htk := take_length_takeWhile Char.isDigit base.data.reverse
      exact htk
    have hdsdig : ∀ c ∈ base.data.drop (base.data.length
        - (base.data.reverse.takeWhile Char.isDigit).length), c.isDigit = true := by
      intro c hc
      have hcrev : c ∈ (base.data.drop (base.data.length
          - (base.data.reverse.takeWhile Char.isDigit).length)).reverse :=
        List.mem_reverse.2 hc
      rw [hdslrev] at hcrev
      exact List.mem_takeWhile_imp hcrev
    have hdslen : (base.data.drop (base.data.length
        - (base.data.reverse.takeWhile Char.isDigit).length)).length
        = (base.data.reverse.takeWhile Char.isDigit).length := by
      rw [List.length_drop]
      omega
    have hdsne : base.data.drop (base.data.length
        - (base.data.reverse.takeWhile Char.isDigit).length) ≠ [] := by
      intro hnil
      rw [hnil] at hdslen
      simp at hdslen
      omega
    unfold strEndsWith at hsuf
    rw [Bool.and_eq_true, decide_eq_true_eq, beq_iff_eq] at hsuf
    obtain ⟨hsuflen, hsufeq⟩ := hsuf
    have hstemsplit : base.data.take (base.data.length
        - (base.data.reverse.takeWhile Char.isDigit).length)
        = (base.data.take (base.data.length
            - (base.data.reverse.takeWhile Char.isDigit).length)).take
              ((String.mk (base.data.take (base.data.length
                - (base.data.reverse.takeWhile Char.isDigit).length))).data.length
                - "-alpha.".data.length)
          ++ "-alpha.".data := by
      conv_lhs => rw [← List.take_append_drop ((String.mk (base.data.take
        (base.data.length - (base.data.reverse.takeWhile
          Char.isDigit).length))).data.length - "-alpha.".data.length)
        (base.data.take (base.data.length - (base.data.reverse.takeWhile
          Char.isDigit).length))]
      rw [hsufeq]
    apply h (String.mk ((base.data.take (base.data.length
        - (base.data.reverse.takeWhile Char.isDigit).length)).take
          ((String.mk (base.data.take (base.data.length
            - (base.data.reverse.takeWhile Char.isDigit).length))).data.length
            - "-alpha.".data.length)))
      (String.mk (base.data.drop (base.data.length
        - (base.data.reverse.takeWhile Char.isDigit).length)))
    refine ⟨?_, ?_, hdsdig⟩
    · show base = String.mk (_ ++ "-alpha.".data ++ _)
      rw [← hstemsplit]
      show base = String.mk (base.data.take _ ++ base.data.drop _)
      rw [List.take_append_drop]
    · intro hds0
      apply hdsne
      have hdata := congrArg String.data hds0
      exact hdata
  · rw [if_neg hcond]

/-- C8: for a clock reading with a four-digit year and two-digit
month, day, hour, minute and second fields, the generated timestamp is a
14-character all-digit string; if the base version decomposes as
`pre ++ "-alpha." ++ ds` with `ds` a non-empty digit string (the anchored
alpha-suffix regex matches), `generateAlphaVersion` replaces exactly those
trailing digits with the fresh timestamp, preserving the `pre ++ "-alpha."`
stem; when no such decomposition exists it appends a new alpha suffix
carrying the timestamp to the unchanged base. -/
theorem C8_generateAlphaVersion_replaces_or_appends (d : DateParts)
    (base : String)
    (hy1 : 1000 ≤ d.year) (hy2 : d.year < 10000) (hmo : d.month < 100)
    (hda : d.day < 100) (hho : d.hour < 100) (hmi : d.minute < 100)
    (hse : d.second < 100) :
    (generateTimestamp d).length = 14 ∧
    (∀ c ∈ (generateTimestamp d).data, c.isDigit = true) ∧
    (∀ pre ds : String, base = pre ++ "-alpha." ++ ds → ds ≠ "" →
      (∀ c ∈ ds.data, c.isDigit = true) →
      generateAlphaVersion (generateTimestamp d) base
        = pre ++ "-alpha." ++ generateTimestamp d) ∧
    ((∀ pre ds : String, ¬(base = pre ++ "-alpha." ++ ds ∧ ds ≠ "" ∧
        ∀ c ∈ ds.data, c.isDigit = true)) →
      generateAlphaVersion (generateTimestamp d) base
        = base ++ "-alpha." ++ generateTimestamp d) := by
  refine ⟨generateTimestamp_length d hy1 hy2 hmo hda hho hmi hse,
    generateTimestamp_digits d, ?_, ?_⟩
  · intro pre ds hb hne hdig
    rw [hb]
    exact generateAlphaVersion_replaces (generateTimestamp d) pre ds hne hdig
  · intro hno
    exact generateAlphaVersion_appends (generateTimestamp d) base hno

theorem C8_generateAlphaVersion_replaces_or_appends_witness :
    (generateTimestamp ⟨2025, 1, 2, 3, 4, 5⟩).length = 14 ∧
    (∀ c ∈ (generateTimestamp ⟨2025, 1, 2, 3, 4, 5⟩).data, c.isDigit = true) ∧
    (∀ pre ds : String, "1.2.3-alpha.777" = pre ++ "-alpha." ++ ds → ds ≠ "" →
      (∀ c ∈ ds.data, c.isDigit = true) →
      generateAlphaVersion (generateTimestamp ⟨2025, 1, 2, 3, 4, 5⟩)
          "1.2.3-alpha.777"
        = pre ++ "-alpha." ++ generateTimestamp ⟨2025, 1, 2, 3, 4, 5⟩) ∧
    ((∀ pre ds : String, ¬("1.2.3-alpha.777" = pre ++ "-alpha." ++ ds ∧
        ds ≠ "" ∧ ∀ c ∈ ds.data, c.isDigit = true)) →
      generateAlphaVersion (generateTimestamp ⟨2025, 1, 2, 3, 4, 5⟩)
          "1.2.3-alpha.777"
        = "1.2.3-alpha.777" ++ "-alpha."
            ++ generateTimestamp ⟨2025, 1, 2, 3, 4, 5⟩) :=
  C8_generateAlphaVersion_replaces_or_appends ⟨2025, 1, 2, 3, 4, 5⟩
    "1.2.3-alpha.777" (by decide) (by decide) (by decide) (by decide)
    (by decide) (by decide) (by decide)

end QK
